import Mathlib

/-!
Verification of the incremental dirty-module detection core of
pyside6-qml-stubgen, shallowly embedded from
`pyside6_qml_stubgen/dirty_file_detection.py`,
`pyside6_qml_stubgen/__init__.py` (import_dirty_modules) and
`pyside6_qml_stubgen/pyside_patching.py` (patch_builtins).

Filesystem access (`path.exists()`, `stat().st_mtime`) and the module
registry (`sys.modules`, `__file__`) are modelled as explicit environment
records.  Python dicts are modelled as association lists in insertion
order (first-match lookup; the dicts built by the code have unique keys).
Dict subscripting `d[k]`, which raises `KeyError` on a missing key, is
modelled with `Except`; `d.get(k)` is modelled with `Option`.
Python truthiness of a `str | None` value (`None` and `""` are falsy) is
modelled by `truthyStr`.  The unbounded `while` loops are modelled with
explicit fuel; fuel exhaustion is the `fuelOut` error and is proved
unreachable for the fuel the embedding passes.
-/

namespace PysideStubgen

/-- Abstract filesystem: `path.exists()` and `path.stat().st_mtime`. -/
structure FileSystem where
  pathExists : String → Bool
  stMtime : String → Int

/-- Embeds the dataclass `PythonModuleMetadata` from dirty_file_detection.py. -/
structure PythonModuleMetadata where
  modification_time : Int
  path : String
  dependencies : List String
deriving DecidableEq, Repr

/-- The `modules` mapping of `PythonModulesMetadata`: module name to record,
`none` being the tombstone (`null` in the JSON form). -/
abbrev ModulesMap := List (String × Option PythonModuleMetadata)

/-- Embeds the dataclass `PythonModulesMetadata` from dirty_file_detection.py. -/
structure PythonModulesMetadata where
  modules : ModulesMap
  generating_version : String := ""
deriving DecidableEq, Repr

/-- Errors a run can raise: a dict lookup on a missing key (`KeyError`), a
pydantic `ValidationError`, or fuel exhaustion of a modelled `while` loop. -/
inductive PyErr where
  | keyError
  | validationError
  | fuelOut
deriving DecidableEq, Repr

/-- Association-list lookup, first match wins (Python dict lookup; the dicts
the code builds have unique keys). -/
def alookup {α : Type} : List (String × α) → String → Option α
  | [], _ => none
  | (k, v) :: t, k₀ => if k = k₀ then some v else alookup t k₀

/-- The key list of an association list (Python `dict.keys()`). -/
def akeys {α : Type} (l : List (String × α)) : List String := l.map Prod.fst

/-- Assignment `d[k] = v` to an existing key: replaces the first binding of
`k`, leaving everything else in place. -/
def aupdate {α : Type} : List (String × α) → String → α → List (String × α)
  | [], _, _ => []
  | (k, v) :: t, k₀, v₀ => if k = k₀ then (k, v₀) :: t else (k, v) :: aupdate t k₀ v₀

/-- Python truthiness of a `str | None` value: `None` and `""` are falsy. -/
def truthyStr : Option String → Bool
  | none => false
  | some s => ¬ s = ""

/-- The per-module dirtiness map `module_dirty`: module name to dirty cause
(`None` when the module is not dirty). -/
abbrev DirtyMap := List (String × Option String)

/-- Seed value for one snapshot entry: `name` when
`meta is not None and (not meta.path.exists() or
meta.modification_time != meta.path.stat().st_mtime)`, else `None`. -/
def seedEntry (fs : FileSystem) (name : String) : Option PythonModuleMetadata → Option String
  | some m => if ¬ fs.pathExists m.path ∨ ¬ m.modification_time = fs.stMtime m.path
      then some name else none
  | none => none

/-- The initialisation loop of `detect_new_and_dirty_files`: mark each module
by whether its own file has changed. -/
def seedDirty (fs : FileSystem) (modules : ModulesMap) : DirtyMap :=
  modules.map (fun p => (p.1, seedEntry fs p.1 p.2))

/-- Inner loop `for dep in meta.dependencies: if module_dirty[dep]: ... break`:
returns the mark of the first dep whose mark is truthy (`KeyError` when a dep
is not a key of `module_dirty`). -/
def firstTruthyDep (dirty : DirtyMap) : List String → Except PyErr (Option String)
  | [] => .ok none
  | d :: rest =>
    match alookup dirty d with
    | none => .error .keyError
    | some none => firstTruthyDep dirty rest
    | some (some s) => if s = "" then firstTruthyDep dirty rest else .ok (some s)

/-- One full scan of the propagation loop body, threading `module_dirty`
updates through the scan as the Python `for` loop does. -/
def propagatePassGo (dirty : DirtyMap) (changed : Bool) :
    ModulesMap → Except PyErr (DirtyMap × Bool)
  | [] => .ok (dirty, changed)
  | (name, meta) :: rest =>
    match alookup dirty name with
    | none => .error .keyError
    | some curr =>
      match curr, meta with
      | none, some m =>
        match firstTruthyDep dirty m.dependencies with
        | .error e => .error e
        | .ok none => propagatePassGo dirty changed rest
        | .ok (some v) => propagatePassGo (aupdate dirty name (some v)) true rest
      | _, _ => propagatePassGo dirty changed rest

/-- One pass of the `while found_change` loop (a scan starting with
`found_change = False`). -/
def propagatePass (modules : ModulesMap) (dirty : DirtyMap) :
    Except PyErr (DirtyMap × Bool) :=
  propagatePassGo dirty false modules

/-- The `while found_change:` loop, with explicit fuel. -/
def propagateLoop (modules : ModulesMap) : Nat → DirtyMap → Except PyErr DirtyMap
  | 0, _ => .error .fuelOut
  | fuel + 1, dirty =>
    match propagatePass modules dirty with
    | .error e => .error e
    | .ok (d₁, changed) => if changed then propagateLoop modules fuel d₁ else .ok d₁

/-- The seed-and-propagate phase of `detect_new_and_dirty_files`, producing
the final `module_dirty` map. -/
def detectDirtyMap (fs : FileSystem) (mm : PythonModulesMetadata) : Except PyErr DirtyMap :=
  propagateLoop mm.modules (mm.modules.length + 1) (seedDirty fs mm.modules)

/-- The dict comprehension `{meta.path: name for name, meta in modules.items()
if meta is not None}`: later entries overwrite earlier ones, so the pair list
is reversed and first-match lookup then yields the last binding. -/
def pathToName (modules : ModulesMap) : List (String × String) :=
  (modules.filterMap (fun p => p.2.map (fun m => (m.path, p.1)))).reverse

/-- Set insertion: add `x` unless already present (Python `set.add`). -/
def insertIfAbsent (l : List String) (x : String) : List String :=
  if x ∈ l then l else l ++ [x]

/-- The set comprehension seeding `reachable_modules`: the walrus condition
walrus condition on `module_path_to_name.get(cf)` keeps only truthy names. -/
def initialReachable (ptn : List (String × String)) (current : List String) : List String :=
  current.foldl
    (fun acc cf =>
      match alookup ptn cf with
      | some name => if name = "" then acc else insertIfAbsent acc name
      | none => acc)
    []

/-- The body of the reachability `while` loop: for each name of the previous
set, union in its record's dependencies (`modules_metadata.modules[name]`
raises `KeyError` on a missing key; the walrus `if meta :=` keeps records,
tombstones being falsy). -/
def reachPassGo (modules : ModulesMap) (reach : List String) :
    List String → Except PyErr (List String)
  | [] => .ok reach
  | name :: rest =>
    match alookup modules name with
    | none => .error .keyError
    | some (some m) => reachPassGo modules (m.dependencies.foldl insertIfAbsent reach) rest
    | some none => reachPassGo modules reach rest

/-- The `while reachable_modules != previous_reachable_modules:` loop with
explicit fuel.  Each pass only appends, so the exit condition is reaching a
pass that adds nothing. -/
def reachLoop (modules : ModulesMap) : Nat → List String → Except PyErr (List String)
  | 0, _ => .error .fuelOut
  | fuel + 1, reach =>
    match reachPassGo modules reach reach with
    | .error e => .error e
    | .ok r₁ => if r₁ = reach then .ok r₁ else reachLoop modules fuel r₁

/-- The final `dirty_files` dict comprehension over `current_files`: a file
with no snapshot module is tagged "new"; one whose module has a truthy dirty
mark is tagged "changed" when the mark is its own name, otherwise
"dependency (mark) changed"; all other files are omitted. -/
def buildDirtyFiles (ptn : List (String × String)) (dirty : DirtyMap) :
    List String → Except PyErr (List (String × String))
  | [] => .ok []
  | cf :: rest =>
    match alookup ptn cf with
    | none => (buildDirtyFiles ptn dirty rest).map (fun l => (cf, "new") :: l)
    | some mname =>
      match alookup dirty mname with
      | none => .error .keyError
      | some none => buildDirtyFiles ptn dirty rest
      | some (some ddep) =>
        if ddep = "" then buildDirtyFiles ptn dirty rest
        else
          (buildDirtyFiles ptn dirty rest).map
            (fun l =>
              (cf, if ddep = mname then "changed"
                   else "dependency " ++ ddep ++ " changed") :: l)

/-- The `cleaned_modules_metadata` dict comprehension: entries that are both
reachable and clean. -/
def cleanedModules (modules : ModulesMap) (reach : List String) (dirty : DirtyMap) :
    ModulesMap :=
  modules.filter (fun p => decide (p.1 ∈ reach) && decide (alookup dirty p.1 = some none))

/-- The final set comprehension `{meta.path for name, reason in
module_dirty.items()}` guarded by `reason is not None` and by the walrus
test that `modules[name]` is a record,
as a duplicate-free list. -/
def dirtyPathsGo (modules : ModulesMap) (acc : List String) :
    List (String × Option String) → Except PyErr (List String)
  | [] => .ok acc
  | (name, reason) :: rest =>
    match reason with
    | none => dirtyPathsGo modules acc rest
    | some _ =>
      match alookup modules name with
      | none => .error .keyError
      | some none => dirtyPathsGo modules acc rest
      | some (some m) => dirtyPathsGo modules (insertIfAbsent acc m.path) rest

/-- Embeds `detect_new_and_dirty_files`: returns `(dirty_files,
cleaned_modules_metadata, dirty backing paths)`. -/
def detect_new_and_dirty_files (fs : FileSystem) (current_files : List String)
    (mm : PythonModulesMetadata) :
    Except PyErr (List (String × String) × ModulesMap × List String) :=
  match detectDirtyMap fs mm with
  | .error e => .error e
  | .ok dirty =>
    match reachLoop mm.modules (mm.modules.length + 1)
        (initialReachable (pathToName mm.modules) current_files) with
    | .error e => .error e
    | .ok reach =>
      match buildDirtyFiles (pathToName mm.modules) dirty current_files with
      | .error e => .error e
      | .ok df =>
        match dirtyPathsGo mm.modules [] dirty with
        | .error e => .error e
        | .ok dp => .ok (df, cleanedModules mm.modules reach dirty, dp)

/-- On-disk state of the snapshot file `metadata.json` for one output
directory: missing, present but rejected by pydantic validation (corrupt or
truncated), or successfully parsed. -/
inductive SnapshotFile where
  | missing
  | unparsable
  | parsed (m : PythonModulesMetadata)
deriving DecidableEq, Repr

/-- Embeds `load_modules_metadata`.  The file is read only when it exists;
pydantic `validate_json` raises `ValidationError` on corrupt input (there is
no try/except around it); a parsed snapshot is returned only when its
`generating_version` equals the current tool version, else the empty
snapshot. -/
def load_modules_metadata (file : SnapshotFile) (currentVersion : String) :
    Except PyErr PythonModulesMetadata :=
  match file with
  | .missing => .ok ⟨[], ""⟩
  | .unparsable => .error .validationError
  | .parsed m => if m.generating_version = currentVersion then .ok m else .ok ⟨[], ""⟩

/-- The dependency list of a record-or-tombstone (a tombstone lists none). -/
def depsOfRecord : Option PythonModuleMetadata → List String
  | some m => m.dependencies
  | none => []

/-- Dependency closure of a modules map: every dependency name listed in a
non-tombstone record is itself a key of the map. -/
abbrev DepClosed (ms : ModulesMap) : Prop :=
  ∀ p ∈ ms, ∀ d ∈ depsOfRecord p.2, d ∈ akeys ms

/-- Number of clean entries of a dirtiness map. -/
def countNone (d : DirtyMap) : Nat := d.countP (fun p => decide (p.2 = none))

/-- Pointwise reading of one entry of the `dirty_files` comprehension. -/
def dirtyTagOf (ptn : List (String × String)) (dirty : DirtyMap) (cf : String) :
    Option String :=
  match alookup ptn cf with
  | none => some "new"
  | some mname =>
    match alookup dirty mname with
    | some (some ddep) =>
      if ddep = "" then none
      else some (if ddep = mname then "changed" else "dependency " ++ ddep ++ " changed")
    | _ => none

/-- Direct dependency edge of the snapshot graph: module `n` has a record
listing `d` among its dependencies. -/
def depEdge (ms : ModulesMap) (n d : String) : Prop :=
  ∃ m, (n, some m) ∈ ms ∧ d ∈ m.dependencies

/-- Soundness invariant of the dirtiness map: every truthy mark `r` carried by
a module is the name of a seeded-dirty module that the module transitively
depends on (or is). -/
def MarksSound (fs : FileSystem) (ms : ModulesMap) (d : DirtyMap) : Prop :=
  ∀ p ∈ d, ∀ r, p.2 = some r →
    (r, some r) ∈ seedDirty fs ms ∧ (p.1 = r ∨ Relation.TransGen (depEdge ms) p.1 r)

/-- Boolean form of "this snapshot entry's file is present and unchanged":
tombstones carry no file, a record is unchanged when its path exists with
exactly the recorded modification time. -/
def recordUnchanged (fs : FileSystem) : Option PythonModuleMetadata → Bool
  | some m => fs.pathExists m.path && decide (m.modification_time = fs.stMtime m.path)
  | none => true

/-- The recorded backing path of a snapshot entry (`None` for a tombstone). -/
def recordPath : Option PythonModuleMetadata → Option String :=
  Option.map PythonModuleMetadata.path

/-- The process state seen by `recursive_module_metadata_addition`:
`sysModules name` is `none` when the name is not in `sys.modules`, and
otherwise holds `getattr(mod, "__file__", None)` — inner `none` for a missing
or `None` attribute; `fs` answers the `pathlib` existence and `stat` calls. -/
structure ImportedEnv where
  sysModules : String → Option (Option String)
  fs : FileSystem

/-- The traced `dependency_map` and its `.get(module_name, set())` read; the
set of edges is carried as a list of names. -/
def depsGet (depMap : List (String × List String)) (name : String) : List String :=
  (alookup depMap name).getD []

/-- Python `sorted` on the traced dependency set. -/
def sortStrings (l : List String) : List String :=
  List.insertionSort (fun a b => a ≤ b) l

/-- A metadata map being folded by `recursive_module_metadata_addition`:
the same shape as the snapshot's modules map. -/
abbrev MetadataMap := ModulesMap

/-- Embeds `recursive_module_metadata_addition`.  Returns the grown metadata
map (the Python version mutates it in place); `none` means the fuel bound on
the recursion depth was exhausted, which is shown unreachable for the fuel
the callers pass.  The trailing `for dep in deps:` loop is the fold over the
dependency list, threading the map through the recursive calls. -/
def recursive_module_metadata_addition (env : ImportedEnv)
    (depMap : List (String × List String)) :
    Nat → String → MetadataMap → Option MetadataMap
  | 0, _, _ => none
  | fuel + 1, module_name, md =>
    if (alookup md module_name).isSome then some md
    else
      match env.sysModules module_name with
      | none => some (md ++ [(module_name, none)])
      | some file? =>
        match file? with
        | none => some (md ++ [(module_name, none)])
        | some fname =>
          if env.fs.pathExists fname = false then some (md ++ [(module_name, none)])
          else
            (depsGet depMap module_name).foldl
              (fun acc dep => acc.bind
                (recursive_module_metadata_addition env depMap fuel dep))
              (some (md ++ [(module_name,
                some ⟨env.fs.stMtime fname, fname,
                  sortStrings (depsGet depMap module_name)⟩)]))

/-- The `for dep in deps:` loop of `recursive_module_metadata_addition`, as a
standalone function for the lemmas below. -/
def rmmaDeps (env : ImportedEnv) (depMap : List (String × List String))
    (fuel : Nat) (deps : List String) (md : MetadataMap) : Option MetadataMap :=
  deps.foldl
    (fun acc dep => acc.bind (recursive_module_metadata_addition env depMap fuel dep))
    (some md)

/-- Dependency closure up to a pending list: every dependency of a record is
a key already, or still queued in `E`.  `ClosedExcept md []` coincides with
`DepClosed md`. -/
def ClosedExcept (md : MetadataMap) (E : List String) : Prop :=
  ∀ p ∈ md, ∀ m, p.2 = some m → ∀ d ∈ m.dependencies, d ∈ akeys md ∨ d ∈ E

/-- All names occurring in the traced dependency sets. -/
def depMapNames (depMap : List (String × List String)) : List String :=
  (depMap.map Prod.snd).flatten

/-- Abstracted surroundings of the `import_dirty_modules` loop:
`moduleNameOf` is the dotted-module-name derivation from a file path
(`".".join(...)`), `importModule` yields the `__file__` of the module that
`importlib.import_module` resolves (inner `none` for a missing/`None`
attribute), and `resolve` is `pathlib.Path.resolve`. -/
structure ImportRunEnv where
  moduleNameOf : String → String
  importModule : String → Option String
  resolve : String → String

/-- The data carried by the `RuntimeError` raised on a reimport whose
resolved file does not back the expected path: the module name and the
expected versus actual paths. -/
structure MismatchError where
  module : String
  expected : String
  actual : Option String
deriving DecidableEq, Repr

/-- The condition `not mod.__file__ or Path(mod.__file__).resolve() !=
fname.resolve()` for a dirty file `fname`. -/
def importMismatch (env : ImportRunEnv) (fname : String) : Bool :=
  match env.importModule (env.moduleNameOf fname) with
  | none => true
  | some f => f = "" || ¬ env.resolve f = env.resolve fname

/-- Errors with which a call to `import_dirty_modules` can abort: an
exception propagating out of `detect_new_and_dirty_files`; the `ValueError`
of a tuple-unpacking assignment whose target count differs from the tuple's
arity; the `RuntimeError` raised on a reimport whose resolved file does not
back the expected path; the `TypeError` of item-assigning the set
`imported_files` standing where `recursive_module_metadata_addition` expects
its output dict; and the `AttributeError` a bound component of the wrong
dynamic type would raise on first use. -/
inductive ImportRunErr where
  | detect (e : PyErr)
  | valueErrorUnpack (targets arity : Nat)
  | runtimeMismatch (e : MismatchError)
  | typeErrorSetItem (module : String)
  | attributeError
deriving DecidableEq, Repr

/-- One component of the 3-tuple `(dirty_files, cleaned_modules_metadata,
dirty backing paths)` returned by `detect_new_and_dirty_files`, as one
element of the dynamic tuple the caller's assignment unpacks. -/
inductive DetectComp where
  | files (df : List (String × String))
  | metas (mm : ModulesMap)
  | paths (dp : List String)
deriving DecidableEq, Repr

/-- Python tuple unpacking with two targets (`a, b = t`): the pair is bound
only when the tuple has exactly two components; otherwise the assignment
raises `ValueError` carrying the expected and the actual count. -/
def pyUnpack2 {α : Type} (t : List α) : Except ImportRunErr (α × α) :=
  match t with
  | [a, b] => Except.ok (a, b)
  | l => Except.error (ImportRunErr.valueErrorUnpack 2 l.length)

/-- The `for fname, reason in dirty_files.items():` loop as the source
writes it: reimport the dirty file's module; raise the naming `RuntimeError`
when the module's `__file__` is falsy or resolves away from the expected
path; otherwise call `recursive_module_metadata_addition(module,
module_metadata, imported_files)`.  That call scrambles the signature
`(module_name, dependency_map, module_metadata)`: the set `imported_files`
stands in the output-dict position, its early-return membership test
(`module in imported_files`) is false, and every branch past that test
item-assigns the set, so each iteration surviving the mismatch check raises
`TypeError` and the loop never advances beyond a successful reimport. -/
def import_dirty_modules_loop (env : ImportRunEnv) :
    List (String × String) → Except ImportRunErr Unit
  | [] => .ok ()
  | (fname, _) :: _ =>
    match env.importModule (env.moduleNameOf fname) with
    | none =>
      .error (ImportRunErr.runtimeMismatch ⟨env.moduleNameOf fname, fname, none⟩)
    | some mfile =>
      if mfile = "" then
        .error (ImportRunErr.runtimeMismatch ⟨env.moduleNameOf fname, fname, some mfile⟩)
      else if ¬ env.resolve mfile = env.resolve fname then
        .error (ImportRunErr.runtimeMismatch ⟨env.moduleNameOf fname, fname, some mfile⟩)
      else
        .error (ImportRunErr.typeErrorSetItem (env.moduleNameOf fname))

/-- The body of `import_dirty_modules` following its unpacking assignment,
applied to the two components the assignment would bind: the reimport loop
over `dirty_files`, followed — when the loop completes — by the
`save_modules_metadata` call, whose `module_metadata` argument is the `.ok`
payload.  A bound component of the wrong dynamic type fails on first use. -/
def importBodyAfterUnpack (env : ImportRunEnv) :
    DetectComp → DetectComp → Except ImportRunErr ModulesMap
  | DetectComp.files df, DetectComp.metas mm =>
    (import_dirty_modules_loop env df).map (fun _ => mm)
  | _, _ => .error ImportRunErr.attributeError

/-- Embeds `import_dirty_modules` (`__init__.py`).  Its first statement
assigns the result of `detect_new_and_dirty_files` — the 3-tuple
`(dirty_files, cleaned_modules_metadata, dirty backing paths)` — to the two
targets `dirty_files, module_metadata`; the rest of the body (the reimport
loop with its mismatch check, then the `save_modules_metadata` call) runs
only if that unpacking binds. -/
def import_dirty_modules (env : ImportRunEnv) (fs : FileSystem)
    (current_files : List String) (m : PythonModulesMetadata) :
    Except ImportRunErr ModulesMap :=
  match detect_new_and_dirty_files fs current_files m with
  | .error e => .error (ImportRunErr.detect e)
  | .ok r =>
    match pyUnpack2 [DetectComp.files r.1, DetectComp.metas r.2.1,
        DetectComp.paths r.2.2] with
    | .error e => .error e
    | .ok (a, b) => importBodyAfterUnpack env a b

/-- A Python value a dict can hold, as far as `patch_builtins` inspects it:
a string or anything else. -/
inductive PyValue where
  | str (s : String)
  | other
deriving DecidableEq, Repr

/-- A namespace dict (`globals`/`locals`). -/
abbrev PyDict := List (String × PyValue)

/-- What `getattr(mod, fromname, None)` yields, as far as the hook inspects
it: a module object carrying a `__name__`, or anything else. -/
inductive ModAttr where
  | moduleNamed (n : String)
  | nonModule
deriving DecidableEq, Repr

/-- A module object as the patched `__import__` sees it. -/
structure ModuleObj where
  name : String
  attrs : List (String × ModAttr)
deriving DecidableEq, Repr

/-- The traced `info.module_dependencies` edge map (a `defaultdict(set)`). -/
abbrev DepEdges := List (String × List String)

/-- `info.module_dependencies[caller].add(target)` on the defaultdict. -/
def addDep (dm : DepEdges) (caller target : String) : DepEdges :=
  match alookup dm caller with
  | some l => aupdate dm caller (insertIfAbsent l target)
  | none => dm ++ [(caller, [target])]

/-- Membership of an edge in the traced dependency map. -/
def edgeMem (dm : DepEdges) (a b : String) : Prop :=
  ∃ l, alookup dm a = some l ∧ b ∈ l

/-- Python truthiness of an optional dict: `None` and `{}` are falsy. -/
def truthyDict : Option PyDict → Option PyDict
  | some d => if d = [] then none else some d
  | none => none

/-- The dict expression `(globals or locals or {})`: the first truthy of the
two, or the empty dict. -/
def effDict (globalsD localsD : Option PyDict) : PyDict :=
  match truthyDict globalsD with
  | some d => d
  | none =>
    match truthyDict localsD with
    | some d => d
    | none => []

/-- The body of `for fromname in fromlist or ():` — record an edge to the
attribute when `getattr(mod, fromname, None)` is a module. -/
def fromlistStep (mod : ModuleObj) (s : String) (dm : DepEdges)
    (fromname : String) : DepEdges :=
  match alookup mod.attrs fromname with
  | some (.moduleNamed n) => addDep dm s n
  | _ => dm

/-- Embeds the patched `__orig_import__` of `patch_builtins`, after the call
to the original import machinery has produced `mod`: reads
`(globals or locals or {}).get("__name__")`, and when that is a string,
records an edge to the imported module's name and to every from-list
attribute that is itself a module; returns the module unchanged either
way. -/
def patched_import (info : DepEdges) (globalsD localsD : Option PyDict)
    (mod : ModuleObj) (fromlist : Option (List String)) : ModuleObj × DepEdges :=
  match alookup (effDict globalsD localsD) "__name__" with
  | some (.str s) =>
    (mod, (fromlist.getD []).foldl (fromlistStep mod s) (addDep info s mod.name))
  | _ => (mod, info)

theorem depClosed_record {ms : ModulesMap} (h : DepClosed ms) :
    ∀ p ∈ ms, ∀ m, p.2 = some m → ∀ d ∈ m.dependencies, d ∈ akeys ms := by
  intro p hp m hm d hd
  refine h p hp d ?_
  rw [hm]
  exact hd

theorem akeys_nil {α : Type} : akeys ([] : List (String × α)) = [] := rfl

theorem akeys_cons {α : Type} (k : String) (v : α) (t : List (String × α)) :
    akeys ((k, v) :: t) = k :: akeys t := rfl

theorem alookup_isSome_iff_mem {α : Type} (l : List (String × α)) (k : String) :
    (alookup l k).isSome ↔ k ∈ akeys l := by
  induction l with
  | nil => simp [alookup, akeys_nil]
  | cons p t ih =>
    obtain ⟨k₁, v₁⟩ := p
    rw [akeys_cons, List.mem_cons]
    by_cases h : k₁ = k
    · simp [alookup, h]
    · rw [show alookup ((k₁, v₁) :: t) k = alookup t k by simp [alookup, h]]
      rw [ih]
      constructor
      · exact Or.inr
      · rintro (h₁ | h₁)
        · exact absurd h₁.symm h
        · exact h₁

theorem alookup_mem {α : Type} {l : List (String × α)} {k : String} {v : α}
    (h : alookup l k = some v) : (k, v) ∈ l := by
  induction l with
  | nil => simp [alookup] at h
  | cons p t ih =>
    obtain ⟨k₁, v₁⟩ := p
    by_cases hk : k₁ = k
    · subst hk
      rw [show alookup ((k₁, v₁) :: t) k₁ = some v₁ by simp [alookup]] at h
      rw [List.mem_cons]
      exact Or.inl (by simp [Option.some.injEq] at h; simp [h])
    · rw [show alookup ((k₁, v₁) :: t) k = alookup t k by simp [alookup, hk]] at h
      exact List.mem_cons_of_mem _ (ih h)

theorem mem_akeys_of_mem {α : Type} {l : List (String × α)} {p : String × α}
    (h : p ∈ l) : p.1 ∈ akeys l := List.mem_map_of_mem Prod.fst h

theorem akeys_aupdate {α : Type} (l : List (String × α)) (k : String) (v : α) :
    akeys (aupdate l k v) = akeys l := by
  induction l with
  | nil => rfl
  | cons p t ih =>
    obtain ⟨k₁, v₁⟩ := p
    by_cases h : k₁ = k
    · simp [aupdate, h, akeys_cons]
    · rw [show aupdate ((k₁, v₁) :: t) k v = (k₁, v₁) :: aupdate t k v by
        simp [aupdate, h]]
      rw [akeys_cons, akeys_cons, ih]

theorem alookup_aupdate_self {α : Type} {l : List (String × α)} {k : String} (v : α)
    (h : k ∈ akeys l) : alookup (aupdate l k v) k = some v := by
  induction l with
  | nil => simp [akeys_nil] at h
  | cons p t ih =>
    obtain ⟨k₁, v₁⟩ := p
    by_cases hk : k₁ = k
    · simp [aupdate, hk, alookup]
    · rw [show aupdate ((k₁, v₁) :: t) k v = (k₁, v₁) :: aupdate t k v by
        simp [aupdate, hk]]
      rw [show alookup ((k₁, v₁) :: aupdate t k v) k = alookup (aupdate t k v) k by
        simp [alookup, hk]]
      rw [akeys_cons, List.mem_cons] at h
      rcases h with h | h
      · exact absurd h.symm hk
      · exact ih h

theorem alookup_aupdate_ne {α : Type} (l : List (String × α)) {k k₀ : String} (v : α)
    (h : ¬ k₀ = k) : alookup (aupdate l k v) k₀ = alookup l k₀ := by
  induction l with
  | nil => rfl
  | cons p t ih =>
    obtain ⟨k₁, v₁⟩ := p
    by_cases hk : k₁ = k
    · subst hk
      have hne : ¬ k₁ = k₀ := fun hh => h hh.symm
      simp [aupdate, alookup, hne]
    · rw [show aupdate ((k₁, v₁) :: t) k v = (k₁, v₁) :: aupdate t k v by
        simp [aupdate, hk]]
      by_cases hk₀ : k₁ = k₀ <;> simp [alookup, hk₀, ih]

theorem mem_aupdate {α : Type} {l : List (String × α)} {k : String} {v : α}
    {p : String × α} (h : p ∈ aupdate l k v) : p ∈ l ∨ (p.1 = k ∧ p.2 = v) := by
  induction l with
  | nil => simp [aupdate] at h
  | cons q t ih =>
    obtain ⟨k₁, v₁⟩ := q
    by_cases hk : k₁ = k
    · rw [show aupdate ((k₁, v₁) :: t) k v = (k₁, v) :: t by simp [aupdate, hk]] at h
      rw [List.mem_cons] at h
      rcases h with h | h
      · exact Or.inr (by simp [h, hk])
      · exact Or.inl (List.mem_cons_of_mem _ h)
    · rw [show aupdate ((k₁, v₁) :: t) k v = (k₁, v₁) :: aupdate t k v by
        simp [aupdate, hk]] at h
      rw [List.mem_cons] at h
      rcases h with h | h
      · exact Or.inl (by simp [h])
      · rcases ih h with h₁ | h₁
        · exact Or.inl (List.mem_cons_of_mem _ h₁)
        · exact Or.inr h₁

theorem akeys_seedDirty (fs : FileSystem) (ms : ModulesMap) :
    akeys (seedDirty fs ms) = akeys ms := by
  induction ms with
  | nil => rfl
  | cons p t ih =>
    obtain ⟨k₁, v₁⟩ := p
    rw [show seedDirty fs ((k₁, v₁) :: t) = (k₁, seedEntry fs k₁ v₁) :: seedDirty fs t
      from rfl]
    rw [akeys_cons, akeys_cons, ih]

theorem alookup_seedDirty (fs : FileSystem) (ms : ModulesMap) (k : String) :
    alookup (seedDirty fs ms) k = (alookup ms k).map (seedEntry fs k) := by
  induction ms with
  | nil => rfl
  | cons p t ih =>
    obtain ⟨k₁, v₁⟩ := p
    rw [show seedDirty fs ((k₁, v₁) :: t) = (k₁, seedEntry fs k₁ v₁) :: seedDirty fs t
      from rfl]
    by_cases h : k₁ = k
    · subst h
      simp [alookup]
    · simp [alookup, h, ih]

theorem countNone_cons (p : String × Option String) (t : DirtyMap) :
    countNone (p :: t) = countNone t + (if p.2 = none then 1 else 0) := by
  simp [countNone, List.countP_cons]

theorem countNone_le_length (d : DirtyMap) : countNone d ≤ d.length :=
  List.countP_le_length _

theorem countNone_aupdate {d : DirtyMap} {k s : String}
    (h : alookup d k = some none) : countNone (aupdate d k (some s)) + 1 = countNone d := by
  induction d with
  | nil => simp [alookup] at h
  | cons p t ih =>
    obtain ⟨k₁, v₁⟩ := p
    by_cases hk : k₁ = k
    · subst hk
      rw [show alookup ((k₁, v₁) :: t) k₁ = some v₁ by simp [alookup]] at h
      rw [Option.some.injEq] at h
      subst h
      rw [show aupdate ((k₁, (none : Option String)) :: t) k₁ (some s)
          = (k₁, some s) :: t by simp [aupdate]]
      rw [countNone_cons, countNone_cons]
      simp
    · rw [show alookup ((k₁, v₁) :: t) k = alookup t k by simp [alookup, hk]] at h
      rw [show aupdate ((k₁, v₁) :: t) k (some s) = (k₁, v₁) :: aupdate t k (some s) by
        simp [aupdate, hk]]
      rw [countNone_cons, countNone_cons]
      have h₂ := ih h
      cases v₁ <;> simp <;> omega

theorem firstTruthyDep_ok {dirty : DirtyMap} {deps : List String}
    (h : ∀ d ∈ deps, d ∈ akeys dirty) : ∃ o, firstTruthyDep dirty deps = .ok o := by
  induction deps with
  | nil => exact ⟨none, rfl⟩
  | cons d rest ih =>
    have hd : d ∈ akeys dirty := h d (List.mem_cons_self d rest)
    have hs : (alookup dirty d).isSome := (alookup_isSome_iff_mem dirty d).2 hd
    obtain ⟨v, hv⟩ := Option.isSome_iff_exists.1 hs
    have ihr := ih (fun x hx => h x (List.mem_cons_of_mem d hx))
    cases v with
    | none => simpa [firstTruthyDep, hv] using ihr
    | some s =>
      by_cases hse : s = ""
      · simpa [firstTruthyDep, hv, hse] using ihr
      · exact ⟨some s, by simp [firstTruthyDep, hv, hse]⟩

theorem passGo_cons_keyerr {dirty : DirtyMap} {ch : Bool} {name : String}
    {meta : Option PythonModuleMetadata} {rest : ModulesMap}
    (h : alookup dirty name = none) :
    propagatePassGo dirty ch ((name, meta) :: rest) = .error .keyError := by
  rw [propagatePassGo, h]

theorem passGo_cons_notclean {dirty : DirtyMap} {ch : Bool} {name s : String}
    {meta : Option PythonModuleMetadata} {rest : ModulesMap}
    (h : alookup dirty name = some (some s)) :
    propagatePassGo dirty ch ((name, meta) :: rest) = propagatePassGo dirty ch rest := by
  rw [propagatePassGo, h]

theorem passGo_cons_tomb {dirty : DirtyMap} {ch : Bool} {name : String}
    {rest : ModulesMap}
    (h : alookup dirty name = some none) :
    propagatePassGo dirty ch ((name, none) :: rest) = propagatePassGo dirty ch rest := by
  rw [propagatePassGo, h]

theorem passGo_cons_record {dirty : DirtyMap} {ch : Bool} {name : String}
    {m : PythonModuleMetadata} {rest : ModulesMap}
    (h : alookup dirty name = some none) :
    propagatePassGo dirty ch ((name, some m) :: rest) =
      match firstTruthyDep dirty m.dependencies with
      | .error e => .error e
      | .ok none => propagatePassGo dirty ch rest
      | .ok (some v) => propagatePassGo (aupdate dirty name (some v)) true rest := by
  rw [propagatePassGo, h]

theorem propagatePassGo_keys {dirty d₁ : DirtyMap} {ch ch₁ : Bool} {ms : ModulesMap}
    (h : propagatePassGo dirty ch ms = .ok (d₁, ch₁)) : akeys d₁ = akeys dirty := by
  induction ms generalizing dirty ch with
  | nil =>
    simp [propagatePassGo] at h
    rw [h.1]
  | cons p rest ih =>
    obtain ⟨name, meta⟩ := p
    cases hl : alookup dirty name with
    | none => rw [passGo_cons_keyerr hl] at h; exact absurd h (by simp)
    | some curr =>
      cases curr with
      | some s => rw [passGo_cons_notclean hl] at h; exact ih h
      | none =>
        cases meta with
        | none => rw [passGo_cons_tomb hl] at h; exact ih h
        | some m =>
          rw [passGo_cons_record hl] at h
          cases hf : firstTruthyDep dirty m.dependencies with
          | error e => rw [hf] at h; exact absurd h (by simp)
          | ok o =>
            rw [hf] at h
            cases o with
            | none => exact ih h
            | some v =>
              simp only at h
              rw [ih h, akeys_aupdate]

theorem propagatePassGo_bool {dirty d₁ : DirtyMap} {ch ch₁ : Bool} {ms : ModulesMap}
    (h : propagatePassGo dirty ch ms = .ok (d₁, ch₁)) :
    (ch = true → ch₁ = true) ∧ (ch₁ = false → d₁ = dirty ∧ ch = false) := by
  induction ms generalizing dirty ch with
  | nil =>
    simp [propagatePassGo] at h
    exact ⟨fun hc => h.2 ▸ hc, fun hc => ⟨h.1.symm, h.2 ▸ hc⟩⟩
  | cons p rest ih =>
    obtain ⟨name, meta⟩ := p
    cases hl : alookup dirty name with
    | none => rw [passGo_cons_keyerr hl] at h; exact absurd h (by simp)
    | some curr =>
      cases curr with
      | some s => rw [passGo_cons_notclean hl] at h; exact ih h
      | none =>
        cases meta with
        | none => rw [passGo_cons_tomb hl] at h; exact ih h
        | some m =>
          rw [passGo_cons_record hl] at h
          cases hf : firstTruthyDep dirty m.dependencies with
          | error e => rw [hf] at h; exact absurd h (by simp)
          | ok o =>
            rw [hf] at h
            cases o with
            | none => exact ih h
            | some v =>
              simp only at h
              refine ⟨fun _ => (ih h).1 rfl, fun hc => ?_⟩
              exact absurd ((ih h).2 hc).2 (by simp)

theorem propagatePassGo_countNone {dirty d₁ : DirtyMap} {ch ch₁ : Bool} {ms : ModulesMap}
    (h : propagatePassGo dirty ch ms = .ok (d₁, ch₁)) :
    countNone d₁ ≤ countNone dirty ∧
      (ch = false → ch₁ = true → countNone d₁ < countNone dirty) := by
  induction ms generalizing dirty ch with
  | nil =>
    simp [propagatePassGo] at h
    constructor
    · rw [h.1]
    · intro hc hc₁
      rw [← h.2] at hc₁
      rw [hc] at hc₁
      exact absurd hc₁ (by simp)
  | cons p rest ih =>
    obtain ⟨name, meta⟩ := p
    cases hl : alookup dirty name with
    | none => rw [passGo_cons_keyerr hl] at h; exact absurd h (by simp)
    | some curr =>
      cases curr with
      | some s => rw [passGo_cons_notclean hl] at h; exact ih h
      | none =>
        cases meta with
        | none => rw [passGo_cons_tomb hl] at h; exact ih h
        | some m =>
          rw [passGo_cons_record hl] at h
          cases hf : firstTruthyDep dirty m.dependencies with
          | error e => rw [hf] at h; exact absurd h (by simp)
          | ok o =>
            rw [hf] at h
            cases o with
            | none => exact ih h
            | some v =>
              simp only at h
              have hcount := countNone_aupdate (k := name) (s := v) hl
              have hrec := (ih h).1
              constructor
              · omega
              · intro _ _
                omega

theorem propagatePassGo_ok {dirty : DirtyMap} {ch : Bool} {ms : ModulesMap}
    (hkeys : ∀ n ∈ akeys ms, n ∈ akeys dirty)
    (hdeps : ∀ p ∈ ms, ∀ m, p.2 = some m → ∀ d ∈ m.dependencies, d ∈ akeys dirty) :
    ∃ out, propagatePassGo dirty ch ms = .ok out := by
  induction ms generalizing dirty ch with
  | nil => exact ⟨(dirty, ch), rfl⟩
  | cons p rest ih =>
    obtain ⟨name, meta⟩ := p
    have hn : name ∈ akeys dirty :=
      hkeys name (by rw [akeys_cons]; exact List.mem_cons_self _ _)
    obtain ⟨curr, hl⟩ := Option.isSome_iff_exists.1 ((alookup_isSome_iff_mem dirty name).2 hn)
    have hkeys₁ : ∀ n ∈ akeys rest, n ∈ akeys dirty := fun n hx =>
      hkeys n (by rw [akeys_cons]; exact List.mem_cons_of_mem _ hx)
    have hdeps₁ : ∀ p ∈ rest, ∀ m, p.2 = some m → ∀ d ∈ m.dependencies, d ∈ akeys dirty :=
      fun q hq => hdeps q (List.mem_cons_of_mem _ hq)
    cases curr with
    | some s => rw [passGo_cons_notclean hl]; exact ih hkeys₁ hdeps₁
    | none =>
      cases meta with
      | none => rw [passGo_cons_tomb hl]; exact ih hkeys₁ hdeps₁
      | some m =>
        rw [passGo_cons_record hl]
        have hm : ∀ d ∈ m.dependencies, d ∈ akeys dirty :=
          hdeps (name, some m) (List.mem_cons_self _ _) m rfl
        obtain ⟨o, ho⟩ := firstTruthyDep_ok hm
        rw [ho]
        cases o with
        | none => exact ih hkeys₁ hdeps₁
        | some v =>
          simp only
          refine ih ?_ ?_
          · intro n hx
            rw [akeys_aupdate]
            exact hkeys₁ n hx
          · intro q hq mm hmm d hd
            rw [akeys_aupdate]
            exact hdeps₁ q hq mm hmm d hd

theorem propagateLoop_succ_err {ms : ModulesMap} {d : DirtyMap} {e : PyErr} {fuel : Nat}
    (h : propagatePass ms d = .error e) :
    propagateLoop ms (fuel + 1) d = .error e := by
  rw [propagateLoop, h]

theorem propagateLoop_succ_changed {ms : ModulesMap} {d d₁ : DirtyMap} {fuel : Nat}
    (h : propagatePass ms d = .ok (d₁, true)) :
    propagateLoop ms (fuel + 1) d = propagateLoop ms fuel d₁ := by
  rw [propagateLoop, h]
  simp

theorem propagateLoop_succ_done {ms : ModulesMap} {d d₁ : DirtyMap} {fuel : Nat}
    (h : propagatePass ms d = .ok (d₁, false)) :
    propagateLoop ms (fuel + 1) d = .ok d₁ := by
  rw [propagateLoop, h]
  simp

theorem propagateLoop_fix {ms : ModulesMap} {fuel : Nat} {d r : DirtyMap}
    (h : propagateLoop ms fuel d = .ok r) : propagatePass ms r = .ok (r, false) := by
  induction fuel generalizing d with
  | zero => exact absurd h (by simp [propagateLoop])
  | succ f ih =>
    cases hp : propagatePass ms d with
    | error e => rw [propagateLoop_succ_err hp] at h; exact absurd h (by simp)
    | ok out =>
      obtain ⟨d₁, changed⟩ := out
      cases changed with
      | true =>
        rw [propagateLoop_succ_changed hp] at h
        exact ih h
      | false =>
        rw [propagateLoop_succ_done hp] at h
        have hr : d₁ = r := by simpa using h
        have hdd : d₁ = d := ((propagatePassGo_bool hp).2 rfl).1
        rw [← hr, hdd]
        rw [hdd] at hp
        exact hp

theorem propagateLoop_mono {ms : ModulesMap} {f g : Nat} {d r : DirtyMap}
    (h : propagateLoop ms f d = .ok r) (hfg : f ≤ g) :
    propagateLoop ms g d = .ok r := by
  induction f generalizing d g with
  | zero => exact absurd h (by simp [propagateLoop])
  | succ f₀ ih =>
    obtain ⟨g₀, rfl⟩ : ∃ g₀, g = g₀ + 1 := ⟨g - 1, by omega⟩
    cases hp : propagatePass ms d with
    | error e => rw [propagateLoop_succ_err hp] at h; exact absurd h (by simp)
    | ok out =>
      obtain ⟨d₁, changed⟩ := out
      cases changed with
      | true =>
        rw [propagateLoop_succ_changed hp] at h
        rw [propagateLoop_succ_changed hp]
        exact ih h (by omega)
      | false =>
        rw [propagateLoop_succ_done hp] at h
        rw [propagateLoop_succ_done hp]
        exact h

theorem propagateLoop_terminates {ms : ModulesMap} {d : DirtyMap} {fuel : Nat}
    (hkeys : akeys d = akeys ms)
    (hclosed : DepClosed ms)
    (hfuel : countNone d < fuel) :
    ∃ r, propagateLoop ms fuel d = .ok r := by
  induction fuel generalizing d with
  | zero => omega
  | succ f ih =>
    have hdeps : ∀ p ∈ ms, ∀ m, p.2 = some m → ∀ x ∈ m.dependencies, x ∈ akeys d :=
      fun p hp m hm x hx => hkeys ▸ depClosed_record hclosed p hp m hm x hx
    have hk : ∀ n ∈ akeys ms, n ∈ akeys d := fun n hn => hkeys ▸ hn
    obtain ⟨out, hout⟩ := @propagatePassGo_ok d false ms hk hdeps
    obtain ⟨d₁, changed⟩ := out
    have hpass : propagatePass ms d = .ok (d₁, changed) := hout
    cases changed with
    | false => exact ⟨d₁, propagateLoop_succ_done hpass⟩
    | true =>
      rw [propagateLoop_succ_changed hpass]
      have hlt := (propagatePassGo_countNone hout).2 rfl rfl
      exact ih (by rw [propagatePassGo_keys hout, hkeys]) (by omega)

theorem mem_insertIfAbsent {l : List String} {x y : String} :
    x ∈ insertIfAbsent l y ↔ x ∈ l ∨ x = y := by
  unfold insertIfAbsent
  by_cases h : y ∈ l
  · simp [h]
    intro hx
    rw [hx]
    exact h
  · simp [h]

theorem insertIfAbsent_append (l : List String) (y : String) :
    ∃ ext, insertIfAbsent l y = l ++ ext := by
  unfold insertIfAbsent
  by_cases h : y ∈ l
  · exact ⟨[], by simp [h]⟩
  · exact ⟨[y], by simp [h]⟩

theorem insertIfAbsent_nodup {l : List String} (hl : l.Nodup) (y : String) :
    (insertIfAbsent l y).Nodup := by
  unfold insertIfAbsent
  by_cases h : y ∈ l
  · simpa [h]
  · simp only [if_neg h]
    rw [List.nodup_append]
    refine ⟨hl, List.nodup_singleton y, ?_⟩
    intro a ha
    simp only [List.mem_singleton]
    intro hay
    rw [hay] at ha
    exact h ha

theorem foldl_insertIfAbsent_append (deps : List String) (acc : List String) :
    ∃ ext, deps.foldl insertIfAbsent acc = acc ++ ext := by
  induction deps generalizing acc with
  | nil => exact ⟨[], by simp⟩
  | cons d rest ih =>
    obtain ⟨e₁, he₁⟩ := insertIfAbsent_append acc d
    obtain ⟨e₂, he₂⟩ := ih (insertIfAbsent acc d)
    exact ⟨e₁ ++ e₂, by rw [List.foldl_cons, he₂, he₁, List.append_assoc]⟩

theorem mem_foldl_insertIfAbsent {deps acc : List String} {x : String} :
    x ∈ deps.foldl insertIfAbsent acc ↔ x ∈ acc ∨ x ∈ deps := by
  induction deps generalizing acc with
  | nil => simp
  | cons d rest ih =>
    rw [List.foldl_cons, ih, mem_insertIfAbsent, List.mem_cons]
    tauto

theorem foldl_insertIfAbsent_nodup {deps acc : List String} (h : acc.Nodup) :
    (deps.foldl insertIfAbsent acc).Nodup := by
  induction deps generalizing acc with
  | nil => exact h
  | cons d rest ih => exact ih (insertIfAbsent_nodup h d)

theorem foldl_insertIfAbsent_fix {deps acc : List String}
    (h : deps.foldl insertIfAbsent acc = acc) : ∀ d ∈ deps, d ∈ acc := by
  induction deps generalizing acc with
  | nil => simp
  | cons d rest ih =>
    rw [List.foldl_cons] at h
    obtain ⟨e₁, he₁⟩ := insertIfAbsent_append acc d
    obtain ⟨e₂, he₂⟩ := foldl_insertIfAbsent_append rest (insertIfAbsent acc d)
    rw [he₁] at h he₂
    rw [he₂, List.append_assoc] at h
    have hnil : e₁ ++ e₂ = [] := by
      have := congrArg List.length h
      simp at this
      simp [this]
    have he₁nil : e₁ = [] := (List.append_eq_nil.1 hnil).1
    have hacc : insertIfAbsent acc d = acc := by rw [he₁, he₁nil, List.append_nil]
    have hd : d ∈ acc := by
      unfold insertIfAbsent at hacc
      by_cases hdm : d ∈ acc
      · exact hdm
      · rw [if_neg hdm] at hacc
        have := congrArg List.length hacc
        simp at this
    intro x hx
    rcases List.mem_cons.1 hx with hx | hx
    · rw [hx]; exact hd
    · have hfold : List.foldl insertIfAbsent acc rest = acc := by
        rw [he₁nil] at he₂
        rw [(List.append_eq_nil.1 hnil).2] at he₂
        simpa using he₂
      exact ih hfold x hx

theorem reachGo_cons_keyerr {ms : ModulesMap} {reach : List String} {name : String}
    {rest : List String} (h : alookup ms name = none) :
    reachPassGo ms reach (name :: rest) = .error .keyError := by
  rw [reachPassGo, h]

theorem reachGo_cons_record {ms : ModulesMap} {reach : List String} {name : String}
    {m : PythonModuleMetadata} {rest : List String}
    (h : alookup ms name = some (some m)) :
    reachPassGo ms reach (name :: rest) =
      reachPassGo ms (m.dependencies.foldl insertIfAbsent reach) rest := by
  rw [reachPassGo, h]

theorem reachGo_cons_tomb {ms : ModulesMap} {reach : List String} {name : String}
    {rest : List String} (h : alookup ms name = some none) :
    reachPassGo ms reach (name :: rest) = reachPassGo ms reach rest := by
  rw [reachPassGo, h]

theorem reachPassGo_append {ms : ModulesMap} {reach r : List String} {l : List String}
    (h : reachPassGo ms reach l = .ok r) : ∃ ext, r = reach ++ ext := by
  induction l generalizing reach with
  | nil =>
    simp [reachPassGo] at h
    exact ⟨[], by simp [h]⟩
  | cons name rest ih =>
    cases hl : alookup ms name with
    | none => rw [reachGo_cons_keyerr hl] at h; exact absurd h (by simp)
    | some mo =>
      cases mo with
      | none => rw [reachGo_cons_tomb hl] at h; exact ih h
      | some m =>
        rw [reachGo_cons_record hl] at h
        obtain ⟨e₁, he₁⟩ := foldl_insertIfAbsent_append m.dependencies reach
        obtain ⟨e₂, he₂⟩ := ih h
        exact ⟨e₁ ++ e₂, by rw [he₂, he₁, List.append_assoc]⟩

theorem reachPassGo_ok {ms : ModulesMap} {reach : List String} {l : List String}
    (h : ∀ n ∈ l, n ∈ akeys ms) : ∃ r, reachPassGo ms reach l = .ok r := by
  induction l generalizing reach with
  | nil => exact ⟨reach, rfl⟩
  | cons name rest ih =>
    have hn := h name (List.mem_cons_self _ _)
    obtain ⟨mo, hmo⟩ := Option.isSome_iff_exists.1 ((alookup_isSome_iff_mem ms name).2 hn)
    have h₁ : ∀ n ∈ rest, n ∈ akeys ms := fun n hx => h n (List.mem_cons_of_mem _ hx)
    cases mo with
    | none => rw [reachGo_cons_tomb hmo]; exact ih h₁
    | some m => rw [reachGo_cons_record hmo]; exact ih h₁

theorem reachPassGo_mem_keys {ms : ModulesMap} {reach r : List String} {l : List String}
    (h : reachPassGo ms reach l = .ok r) : ∀ n ∈ l, n ∈ akeys ms := by
  induction l generalizing reach with
  | nil => simp
  | cons name rest ih =>
    intro x hx
    cases hl : alookup ms name with
    | none => rw [reachGo_cons_keyerr hl] at h; exact absurd h (by simp)
    | some mo =>
      rcases List.mem_cons.1 hx with hx | hx
      · rw [hx]
        exact (alookup_isSome_iff_mem ms name).1 (by rw [hl]; rfl)
      · cases mo with
        | none => rw [reachGo_cons_tomb hl] at h; exact ih h x hx
        | some m => rw [reachGo_cons_record hl] at h; exact ih h x hx

theorem reachPassGo_sub {ms : ModulesMap} {reach r : List String} {l : List String}
    {S : List String}
    (hreach : ∀ x ∈ reach, x ∈ S)
    (hdeps : ∀ n m, alookup ms n = some (some m) → ∀ d ∈ m.dependencies, d ∈ S)
    (h : reachPassGo ms reach l = .ok r) : ∀ x ∈ r, x ∈ S := by
  induction l generalizing reach with
  | nil =>
    simp [reachPassGo] at h
    rw [← h]
    exact hreach
  | cons name rest ih =>
    cases hl : alookup ms name with
    | none => rw [reachGo_cons_keyerr hl] at h; exact absurd h (by simp)
    | some mo =>
      cases mo with
      | none => rw [reachGo_cons_tomb hl] at h; exact ih hreach h
      | some m =>
        rw [reachGo_cons_record hl] at h
        refine ih ?_ h
        intro x hx
        rcases mem_foldl_insertIfAbsent.1 hx with hx | hx
        · exact hreach x hx
        · exact hdeps name m hl x hx

theorem reachPassGo_nodup {ms : ModulesMap} {reach r : List String} {l : List String}
    (hn : reach.Nodup) (h : reachPassGo ms reach l = .ok r) : r.Nodup := by
  induction l generalizing reach with
  | nil =>
    simp [reachPassGo] at h
    rw [← h]
    exact hn
  | cons name rest ih =>
    cases hl : alookup ms name with
    | none => rw [reachGo_cons_keyerr hl] at h; exact absurd h (by simp)
    | some mo =>
      cases mo with
      | none => rw [reachGo_cons_tomb hl] at h; exact ih hn h
      | some m =>
        rw [reachGo_cons_record hl] at h
        exact ih (foldl_insertIfAbsent_nodup hn) h

theorem reachPassGo_stable {ms : ModulesMap} {acc r : List String} {l : List String}
    (h : reachPassGo ms acc l = .ok r) (hlen : r.length ≤ acc.length) :
    r = acc ∧ ∀ n ∈ l, ∀ m, alookup ms n = some (some m) →
      ∀ d ∈ m.dependencies, d ∈ acc := by
  induction l generalizing acc with
  | nil =>
    simp [reachPassGo] at h
    exact ⟨h.symm, by simp⟩
  | cons name rest ih =>
    cases hl : alookup ms name with
    | none => rw [reachGo_cons_keyerr hl] at h; exact absurd h (by simp)
    | some mo =>
      cases mo with
      | none =>
        rw [reachGo_cons_tomb hl] at h
        obtain ⟨hr, hd⟩ := ih h hlen
        refine ⟨hr, ?_⟩
        intro n hn m hm d hdm
        rcases List.mem_cons.1 hn with hn | hn
        · rw [hn] at hm
          rw [hl] at hm
          exact absurd hm (by simp)
        · exact hd n hn m hm d hdm
      | some m =>
        rw [reachGo_cons_record hl] at h
        obtain ⟨e₁, he₁⟩ := foldl_insertIfAbsent_append m.dependencies acc
        obtain ⟨e₂, he₂⟩ := reachPassGo_append h
        have hlen₁ : e₁ = [] ∧ e₂ = [] := by
          rw [he₂, he₁, List.append_assoc, List.length_append, List.length_append] at hlen
          have hz : e₁.length = 0 ∧ e₂.length = 0 := by omega
          exact ⟨List.eq_nil_of_length_eq_zero hz.1, List.eq_nil_of_length_eq_zero hz.2⟩
        have hacc : m.dependencies.foldl insertIfAbsent acc = acc := by
          rw [he₁, hlen₁.1, List.append_nil]
        rw [hacc] at h
        obtain ⟨hr, hd⟩ := ih h hlen
        refine ⟨hr, ?_⟩
        intro n hn mm hmm d hdm
        rcases List.mem_cons.1 hn with hn | hn
        · rw [hn] at hmm
          rw [hl] at hmm
          rw [Option.some.injEq, Option.some.injEq] at hmm
          rw [← hmm] at hdm
          exact foldl_insertIfAbsent_fix hacc d hdm
        · exact hd n hn mm hmm d hdm

theorem reachLoop_succ_err {ms : ModulesMap} {reach : List String} {e : PyErr} {fuel : Nat}
    (h : reachPassGo ms reach reach = .error e) :
    reachLoop ms (fuel + 1) reach = .error e := by
  rw [reachLoop, h]

theorem reachLoop_succ_done {ms : ModulesMap} {reach : List String} {fuel : Nat}
    (h : reachPassGo ms reach reach = .ok reach) :
    reachLoop ms (fuel + 1) reach = .ok reach := by
  rw [reachLoop, h]
  simp

theorem reachLoop_succ_grow {ms : ModulesMap} {reach r₁ : List String} {fuel : Nat}
    (h : reachPassGo ms reach reach = .ok r₁) (hne : ¬ r₁ = reach) :
    reachLoop ms (fuel + 1) reach = reachLoop ms fuel r₁ := by
  rw [reachLoop, h]
  simp [hne]

theorem reachLoop_fix {ms : ModulesMap} {fuel : Nat} {reach r : List String}
    (h : reachLoop ms fuel reach = .ok r) : reachPassGo ms r r = .ok r := by
  induction fuel generalizing reach with
  | zero => exact absurd h (by simp [reachLoop])
  | succ f ih =>
    cases hp : reachPassGo ms reach reach with
    | error e => rw [reachLoop_succ_err hp] at h; exact absurd h (by simp)
    | ok r₁ =>
      by_cases hne : r₁ = reach
      · rw [hne] at hp
        rw [reachLoop_succ_done hp] at h
        have : reach = r := by simpa using h
        rw [← this]
        exact hp
      · rw [reachLoop_succ_grow hp hne] at h
        exact ih h

theorem nodup_subset_length {l s : List String} (hn : l.Nodup) (hsub : ∀ x ∈ l, x ∈ s) :
    l.length ≤ s.length := by
  have h₁ : l.toFinset.card = l.length := List.toFinset_card_of_nodup hn
  have h₂ : l.toFinset ⊆ s.toFinset := by
    intro x hx
    rw [List.mem_toFinset] at hx ⊢
    exact hsub x hx
  have h₃ : s.toFinset.card ≤ s.length := s.toFinset_card_le
  have h₄ := Finset.card_le_card h₂
  omega

theorem reachLoop_terminates {ms : ModulesMap} {reach : List String} {fuel : Nat}
    (hsub : ∀ x ∈ reach, x ∈ akeys ms)
    (hnd : reach.Nodup)
    (hclosed : DepClosed ms)
    (hfuel : (akeys ms).length + 1 ≤ fuel + reach.length) :
    ∃ r, reachLoop ms fuel reach = .ok r := by
  have hdeps : ∀ n m, alookup ms n = some (some m) →
      ∀ d ∈ m.dependencies, d ∈ akeys ms := by
    intro n m hl d hd
    exact depClosed_record hclosed (n, some m) (alookup_mem hl) m rfl d hd
  induction fuel generalizing reach with
  | zero =>
    have := nodup_subset_length hnd hsub
    omega
  | succ f ih =>
    obtain ⟨r₁, hr₁⟩ := @reachPassGo_ok ms reach reach hsub
    by_cases hne : r₁ = reach
    · rw [hne] at hr₁
      exact ⟨reach, reachLoop_succ_done hr₁⟩
    · rw [reachLoop_succ_grow hr₁ hne]
      obtain ⟨ext, hext⟩ := reachPassGo_append hr₁
      have hextne : ¬ ext = [] := by
        intro hnil
        rw [hnil, List.append_nil] at hext
        exact hne hext
      have hlen : reach.length + 1 ≤ r₁.length := by
        rw [hext]
        simp
        cases ext with
        | nil => exact absurd rfl hextne
        | cons a t => simp
      exact ih (reachPassGo_sub hsub hdeps hr₁) (reachPassGo_nodup hnd hr₁) (by omega)

theorem pathToName_value_mem {ms : ModulesMap} {cf m : String}
    (h : alookup (pathToName ms) cf = some m) :
    ∃ meta, (m, some meta) ∈ ms ∧ meta.path = cf := by
  have hmem := alookup_mem h
  rw [pathToName, List.mem_reverse, List.mem_filterMap] at hmem
  obtain ⟨p, hp, hmap⟩ := hmem
  obtain ⟨n, mo⟩ := p
  cases mo with
  | none => simp at hmap
  | some meta =>
    simp only [Option.map_some', Option.some.injEq, Prod.mk.injEq] at hmap
    exact ⟨meta, by rw [← hmap.2]; exact hp, hmap.1⟩

theorem pathToName_key_isSome {ms : ModulesMap} {cf n : String} {meta : PythonModuleMetadata}
    (hmem : (n, some meta) ∈ ms) (hpath : meta.path = cf) :
    (alookup (pathToName ms) cf).isSome := by
  rw [alookup_isSome_iff_mem]
  rw [pathToName, akeys, List.map_reverse, List.mem_reverse]
  have hf : (cf, n) ∈ ms.filterMap (fun p => p.2.map (fun m => (m.path, p.1))) :=
    List.mem_filterMap.2 ⟨(n, some meta), hmem, by simp [hpath]⟩
  exact List.mem_map_of_mem Prod.fst hf

theorem bdf_cons_new {ptn : List (String × String)} {dirty : DirtyMap} {cf : String}
    {rest : List String} (h : alookup ptn cf = none) :
    buildDirtyFiles ptn dirty (cf :: rest) =
      (buildDirtyFiles ptn dirty rest).map (fun l => (cf, "new") :: l) := by
  rw [buildDirtyFiles, h]

theorem bdf_cons_keyerr {ptn : List (String × String)} {dirty : DirtyMap} {cf m : String}
    {rest : List String} (h : alookup ptn cf = some m) (h₁ : alookup dirty m = none) :
    buildDirtyFiles ptn dirty (cf :: rest) = .error .keyError := by
  rw [buildDirtyFiles, h]
  dsimp only
  rw [h₁]

theorem bdf_cons_clean {ptn : List (String × String)} {dirty : DirtyMap} {cf m : String}
    {rest : List String} (h : alookup ptn cf = some m) (h₁ : alookup dirty m = some none) :
    buildDirtyFiles ptn dirty (cf :: rest) = buildDirtyFiles ptn dirty rest := by
  rw [buildDirtyFiles, h]
  dsimp only
  rw [h₁]

theorem bdf_cons_falsy {ptn : List (String × String)} {dirty : DirtyMap} {cf m : String}
    {rest : List String} (h : alookup ptn cf = some m)
    (h₁ : alookup dirty m = some (some "")) :
    buildDirtyFiles ptn dirty (cf :: rest) = buildDirtyFiles ptn dirty rest := by
  rw [buildDirtyFiles, h]
  dsimp only
  rw [h₁]
  simp

theorem bdf_cons_tag {ptn : List (String × String)} {dirty : DirtyMap} {cf m d : String}
    {rest : List String} (h : alookup ptn cf = some m)
    (h₁ : alookup dirty m = some (some d)) (hne : ¬ d = "") :
    buildDirtyFiles ptn dirty (cf :: rest) =
      (buildDirtyFiles ptn dirty rest).map
        (fun l => (cf, if d = m then "changed" else "dependency " ++ d ++ " changed") :: l) := by
  rw [buildDirtyFiles, h]
  dsimp only
  rw [h₁]
  simp [hne]

theorem buildDirtyFiles_ok {ptn : List (String × String)} {dirty : DirtyMap}
    {cfs : List String}
    (h : ∀ cf m, alookup ptn cf = some m → m ∈ akeys dirty) :
    ∃ df, buildDirtyFiles ptn dirty cfs = .ok df := by
  induction cfs with
  | nil => exact ⟨[], rfl⟩
  | cons cf rest ih =>
    obtain ⟨df₁, hdf₁⟩ := ih
    cases hp : alookup ptn cf with
    | none => exact ⟨(cf, "new") :: df₁, by rw [bdf_cons_new hp, hdf₁]; rfl⟩
    | some m =>
      obtain ⟨v, hv⟩ := Option.isSome_iff_exists.1
        ((alookup_isSome_iff_mem dirty m).2 (h cf m hp))
      cases v with
      | none => exact ⟨df₁, by rw [bdf_cons_clean hp hv]; exact hdf₁⟩
      | some d =>
        by_cases hd : d = ""
        · subst hd
          exact ⟨df₁, by rw [bdf_cons_falsy hp hv]; exact hdf₁⟩
        · refine ⟨(cf, if d = m then "changed" else "dependency " ++ d ++ " changed") :: df₁,
            ?_⟩
          rw [bdf_cons_tag hp hv hd, hdf₁]
          rfl

theorem dirtyTagOf_new {ptn : List (String × String)} {dirty : DirtyMap} {cf : String}
    (h : alookup ptn cf = none) : dirtyTagOf ptn dirty cf = some "new" := by
  rw [dirtyTagOf, h]

theorem dirtyTagOf_missing {ptn : List (String × String)} {dirty : DirtyMap} {cf m : String}
    (h : alookup ptn cf = some m) (h₁ : alookup dirty m = none) :
    dirtyTagOf ptn dirty cf = none := by
  rw [dirtyTagOf, h]
  dsimp only
  rw [h₁]

theorem dirtyTagOf_clean {ptn : List (String × String)} {dirty : DirtyMap} {cf m : String}
    (h : alookup ptn cf = some m) (h₁ : alookup dirty m = some none) :
    dirtyTagOf ptn dirty cf = none := by
  rw [dirtyTagOf, h]
  dsimp only
  rw [h₁]

theorem dirtyTagOf_falsy {ptn : List (String × String)} {dirty : DirtyMap} {cf m : String}
    (h : alookup ptn cf = some m) (h₁ : alookup dirty m = some (some "")) :
    dirtyTagOf ptn dirty cf = none := by
  rw [dirtyTagOf, h]
  dsimp only
  rw [h₁]
  simp

theorem dirtyTagOf_tag {ptn : List (String × String)} {dirty : DirtyMap} {cf m d : String}
    (h : alookup ptn cf = some m) (h₁ : alookup dirty m = some (some d)) (hd : ¬ d = "") :
    dirtyTagOf ptn dirty cf =
      some (if d = m then "changed" else "dependency " ++ d ++ " changed") := by
  rw [dirtyTagOf, h]
  dsimp only
  rw [h₁]
  simp [hd]

theorem alookup_none_of_domain {α : Type} {df : List (String × α)} {dom : List String}
    {cf : String} (hdom : ∀ p ∈ df, p.1 ∈ dom) (hcf : ¬ cf ∈ dom) :
    alookup df cf = none := by
  cases hdx : alookup df cf with
  | none => rfl
  | some t => exact absurd (hdom _ (alookup_mem hdx)) hcf

theorem buildDirtyFiles_spec {ptn : List (String × String)} {dirty : DirtyMap}
    {cfs : List String} {df : List (String × String)}
    (h : buildDirtyFiles ptn dirty cfs = .ok df) :
    (∀ cf ∈ cfs, alookup df cf = dirtyTagOf ptn dirty cf) ∧
      (∀ p ∈ df, p.1 ∈ cfs) := by
  induction cfs generalizing df with
  | nil =>
    simp [buildDirtyFiles] at h
    subst h
    exact ⟨by simp, by simp [alookup]⟩
  | cons cf rest ih =>
    cases hp : alookup ptn cf with
    | none =>
      rw [bdf_cons_new hp] at h
      cases hrec : buildDirtyFiles ptn dirty rest with
      | error e =>
        rw [hrec] at h
        have h₂ : (Except.error e : Except PyErr (List (String × String)))
            = Except.ok df := h
        exact absurd h₂ (by simp)
      | ok df₁ =>
        rw [hrec] at h
        have hdf : ((cf, "new") :: df₁) = df := by
          have h₂ : (Except.ok ((cf, "new") :: df₁) : Except PyErr _) = Except.ok df := h
          exact Except.ok.inj h₂
        subst hdf
        obtain ⟨ih₁, ih₂⟩ := ih hrec
        constructor
        · intro x hx
          by_cases hxc : cf = x
          · subst hxc
            rw [show alookup ((cf, "new") :: df₁) cf = some "new" by simp [alookup]]
            rw [dirtyTagOf_new hp]
          · rw [show alookup ((cf, "new") :: df₁) x = alookup df₁ x by
              simp [alookup, hxc]]
            rcases List.mem_cons.1 hx with hx | hx
            · exact absurd hx.symm hxc
            · exact ih₁ x hx
        · intro p hpp
          rcases List.mem_cons.1 hpp with hpp | hpp
          · rw [hpp]; exact List.mem_cons_self _ _
          · exact List.mem_cons_of_mem _ (ih₂ p hpp)
    | some m =>
      cases hv : alookup dirty m with
      | none => rw [bdf_cons_keyerr hp hv] at h; exact absurd h (by simp)
      | some v =>
        cases v with
        | none =>
          rw [bdf_cons_clean hp hv] at h
          obtain ⟨ih₁, ih₂⟩ := ih h
          refine ⟨?_, fun p hpp => List.mem_cons_of_mem _ (ih₂ p hpp)⟩
          intro x hx
          rcases List.mem_cons.1 hx with hx | hx
          · subst hx
            rw [dirtyTagOf_clean hp hv]
            by_cases hcr : x ∈ rest
            · rw [ih₁ x hcr, dirtyTagOf_clean hp hv]
            · exact alookup_none_of_domain ih₂ hcr
          · exact ih₁ x hx
        | some d =>
          by_cases hd : d = ""
          · subst hd
            rw [bdf_cons_falsy hp hv] at h
            obtain ⟨ih₁, ih₂⟩ := ih h
            refine ⟨?_, fun p hpp => List.mem_cons_of_mem _ (ih₂ p hpp)⟩
            intro x hx
            rcases List.mem_cons.1 hx with hx | hx
            · subst hx
              rw [dirtyTagOf_falsy hp hv]
              by_cases hcr : x ∈ rest
              · rw [ih₁ x hcr, dirtyTagOf_falsy hp hv]
              · exact alookup_none_of_domain ih₂ hcr
            · exact ih₁ x hx
          · rw [bdf_cons_tag hp hv hd] at h
            cases hrec : buildDirtyFiles ptn dirty rest with
            | error e =>
              rw [hrec] at h
              have h₂ : (Except.error e : Except PyErr (List (String × String)))
                  = Except.ok df := h
              exact absurd h₂ (by simp)
            | ok df₁ =>
              rw [hrec] at h
              have hdf : ((cf, if d = m then "changed"
                  else "dependency " ++ d ++ " changed") :: df₁) = df := by
                have h₂ : (Except.ok ((cf, if d = m then "changed"
                    else "dependency " ++ d ++ " changed") :: df₁) : Except PyErr _)
                    = Except.ok df := h
                exact Except.ok.inj h₂
              subst hdf
              obtain ⟨ih₁, ih₂⟩ := ih hrec
              constructor
              · intro x hx
                by_cases hxc : cf = x
                · subst hxc
                  rw [show alookup ((cf, if d = m then "changed"
                      else "dependency " ++ d ++ " changed") :: df₁) cf
                      = some (if d = m then "changed"
                        else "dependency " ++ d ++ " changed") by simp [alookup]]
                  rw [dirtyTagOf_tag hp hv hd]
                · rw [show alookup ((cf, if d = m then "changed"
                      else "dependency " ++ d ++ " changed") :: df₁) x = alookup df₁ x by
                    simp [alookup, hxc]]
                  rcases List.mem_cons.1 hx with hx | hx
                  · exact absurd hx.symm hxc
                  · exact ih₁ x hx
              · intro p hpp
                rcases List.mem_cons.1 hpp with hpp | hpp
                · rw [hpp]; exact List.mem_cons_self _ _
                · exact List.mem_cons_of_mem _ (ih₂ p hpp)

theorem dpg_cons_clean {ms : ModulesMap} {acc : List String} {name : String}
    {rest : List (String × Option String)} :
    dirtyPathsGo ms acc ((name, none) :: rest) = dirtyPathsGo ms acc rest := by
  rw [dirtyPathsGo]

theorem dpg_cons_keyerr {ms : ModulesMap} {acc : List String} {name r : String}
    {rest : List (String × Option String)} (h : alookup ms name = none) :
    dirtyPathsGo ms acc ((name, some r) :: rest) = .error .keyError := by
  rw [dirtyPathsGo]
  rw [h]

theorem dpg_cons_tomb {ms : ModulesMap} {acc : List String} {name r : String}
    {rest : List (String × Option String)} (h : alookup ms name = some none) :
    dirtyPathsGo ms acc ((name, some r) :: rest) = dirtyPathsGo ms acc rest := by
  rw [dirtyPathsGo]
  rw [h]

theorem dpg_cons_record {ms : ModulesMap} {acc : List String} {name r : String}
    {m : PythonModuleMetadata} {rest : List (String × Option String)}
    (h : alookup ms name = some (some m)) :
    dirtyPathsGo ms acc ((name, some r) :: rest) =
      dirtyPathsGo ms (insertIfAbsent acc m.path) rest := by
  rw [dirtyPathsGo]
  rw [h]

theorem dirtyPathsGo_ok {ms : ModulesMap} {acc : List String}
    {d : List (String × Option String)}
    (h : ∀ p ∈ d, p.1 ∈ akeys ms) : ∃ r, dirtyPathsGo ms acc d = .ok r := by
  induction d generalizing acc with
  | nil => exact ⟨acc, rfl⟩
  | cons p rest ih =>
    obtain ⟨name, reason⟩ := p
    have h₁ : ∀ q ∈ rest, q.1 ∈ akeys ms := fun q hq => h q (List.mem_cons_of_mem _ hq)
    cases reason with
    | none => rw [dpg_cons_clean]; exact ih h₁
    | some r =>
      obtain ⟨mo, hmo⟩ := Option.isSome_iff_exists.1
        ((alookup_isSome_iff_mem ms name).2 (h (name, some r) (List.mem_cons_self _ _)))
      cases mo with
      | none => rw [dpg_cons_tomb hmo]; exact ih h₁
      | some m => rw [dpg_cons_record hmo]; exact ih h₁

theorem dirtyPathsGo_allclean {ms : ModulesMap} {acc : List String}
    {d : List (String × Option String)}
    (h : ∀ p ∈ d, p.2 = none) : dirtyPathsGo ms acc d = .ok acc := by
  induction d with
  | nil => rfl
  | cons p rest ih =>
    obtain ⟨name, reason⟩ := p
    have hr : reason = none := h (name, reason) (List.mem_cons_self _ _)
    subst hr
    rw [dpg_cons_clean]
    exact ih (fun q hq => h q (List.mem_cons_of_mem _ hq))

theorem cleanedModules_eq_self {ms : ModulesMap} {reach : List String} {dirty : DirtyMap}
    (h : ∀ p ∈ ms, p.1 ∈ reach ∧ alookup dirty p.1 = some none) :
    cleanedModules ms reach dirty = ms := by
  rw [cleanedModules, List.filter_eq_self]
  intro p hp
  obtain ⟨h₁, h₂⟩ := h p hp
  simp [h₁, h₂]

theorem initialReachable_invariant {ms : ModulesMap} {cfs : List String}
    {acc : List String}
    (hsub : ∀ x ∈ acc, x ∈ akeys ms) (hnd : acc.Nodup) :
    (∀ x ∈ cfs.foldl
        (fun acc cf =>
          match alookup (pathToName ms) cf with
          | some name => if name = "" then acc else insertIfAbsent acc name
          | none => acc)
        acc, x ∈ akeys ms) ∧
      (cfs.foldl
        (fun acc cf =>
          match alookup (pathToName ms) cf with
          | some name => if name = "" then acc else insertIfAbsent acc name
          | none => acc)
        acc).Nodup := by
  induction cfs generalizing acc with
  | nil => exact ⟨hsub, hnd⟩
  | cons cf rest ih =>
    rw [List.foldl_cons]
    cases hp : alookup (pathToName ms) cf with
    | none => exact ih hsub hnd
    | some name =>
      by_cases hne : name = ""
      · simp only [hp, if_pos hne]
        exact ih hsub hnd
      · simp only [hp, if_neg hne]
        refine ih ?_ (insertIfAbsent_nodup hnd name)
        intro x hx
        rcases mem_insertIfAbsent.1 hx with hx | hx
        · exact hsub x hx
        · obtain ⟨meta, hmem, _⟩ := pathToName_value_mem hp
          rw [hx]
          exact mem_akeys_of_mem hmem

theorem initialReachable_sub {ms : ModulesMap} {cfs : List String} :
    ∀ x ∈ initialReachable (pathToName ms) cfs, x ∈ akeys ms :=
  (initialReachable_invariant (by simp) List.nodup_nil).1

theorem initialReachable_nodup {ms : ModulesMap} {cfs : List String} :
    (initialReachable (pathToName ms) cfs).Nodup :=
  (@initialReachable_invariant ms cfs [] (by simp) List.nodup_nil).2

theorem detect_eq {fs : FileSystem} {cfs : List String} {mm : PythonModulesMetadata}
    {dirty : DirtyMap} {reach : List String} {df : List (String × String)}
    {dp : List String}
    (hd : detectDirtyMap fs mm = .ok dirty)
    (hr : reachLoop mm.modules (mm.modules.length + 1)
      (initialReachable (pathToName mm.modules) cfs) = .ok reach)
    (hb : buildDirtyFiles (pathToName mm.modules) dirty cfs = .ok df)
    (hp : dirtyPathsGo mm.modules [] dirty = .ok dp) :
    detect_new_and_dirty_files fs cfs mm =
      .ok (df, cleanedModules mm.modules reach dirty, dp) := by
  rw [detect_new_and_dirty_files, hd]
  dsimp only
  rw [hr]
  dsimp only
  rw [hb]
  dsimp only
  rw [hp]

theorem detect_inv {fs : FileSystem} {cfs : List String} {mm : PythonModulesMetadata}
    {out : List (String × String) × ModulesMap × List String}
    (h : detect_new_and_dirty_files fs cfs mm = .ok out) :
    ∃ dirty reach dp,
      detectDirtyMap fs mm = .ok dirty ∧
      reachLoop mm.modules (mm.modules.length + 1)
        (initialReachable (pathToName mm.modules) cfs) = .ok reach ∧
      buildDirtyFiles (pathToName mm.modules) dirty cfs = .ok out.1 ∧
      dirtyPathsGo mm.modules [] dirty = .ok dp ∧
      out = (out.1, cleanedModules mm.modules reach dirty, dp) := by
  rw [detect_new_and_dirty_files] at h
  cases hd : detectDirtyMap fs mm with
  | error e => rw [hd] at h; exact absurd h (by simp)
  | ok dirty =>
    rw [hd] at h
    dsimp only at h
    cases hr : reachLoop mm.modules (mm.modules.length + 1)
        (initialReachable (pathToName mm.modules) cfs) with
    | error e => rw [hr] at h; exact absurd h (by simp)
    | ok reach =>
      rw [hr] at h
      dsimp only at h
      cases hb : buildDirtyFiles (pathToName mm.modules) dirty cfs with
      | error e => rw [hb] at h; exact absurd h (by simp)
      | ok df =>
        rw [hb] at h
        dsimp only at h
        cases hp : dirtyPathsGo mm.modules [] dirty with
        | error e => rw [hp] at h; exact absurd h (by simp)
        | ok dp =>
          rw [hp] at h
          rw [Except.ok.injEq] at h
          subst h
          exact ⟨dirty, reach, dp, rfl, rfl, hb, hp, rfl⟩

theorem alookup_eq_of_mem_nodup {α : Type} {l : List (String × α)} {k : String} {v : α}
    (hnd : (akeys l).Nodup) (h : (k, v) ∈ l) : alookup l k = some v := by
  induction l with
  | nil => simp at h
  | cons p t ih =>
    obtain ⟨k₁, v₁⟩ := p
    rw [akeys_cons, List.nodup_cons] at hnd
    rcases List.mem_cons.1 h with h | h
    · rw [Prod.mk.injEq] at h
      rw [show alookup ((k₁, v₁) :: t) k = if k₁ = k then some v₁ else alookup t k
        from rfl]
      rw [if_pos h.1.symm, h.2]
    · by_cases hk : k₁ = k
      · subst hk
        exact absurd (mem_akeys_of_mem h) hnd.1
      · rw [show alookup ((k₁, v₁) :: t) k = alookup t k by simp [alookup, hk]]
        exact ih hnd.2 h

theorem firstTruthyDep_found {dirty : DirtyMap} {deps : List String} {v : String}
    (h : firstTruthyDep dirty deps = .ok (some v)) :
    ¬ v = "" ∧ ∃ d ∈ deps, alookup dirty d = some (some v) := by
  induction deps with
  | nil => simp [firstTruthyDep] at h
  | cons d rest ih =>
    cases hl : alookup dirty d with
    | none => rw [firstTruthyDep, hl] at h; exact absurd h (by simp)
    | some mo =>
      cases mo with
      | none =>
        rw [firstTruthyDep, hl] at h
        obtain ⟨hne, x, hx, hlx⟩ := ih h
        exact ⟨hne, x, List.mem_cons_of_mem _ hx, hlx⟩
      | some s =>
        rw [firstTruthyDep, hl] at h
        dsimp only at h
        by_cases hs : s = ""
        · rw [if_pos hs] at h
          obtain ⟨hne, x, hx, hlx⟩ := ih h
          exact ⟨hne, x, List.mem_cons_of_mem _ hx, hlx⟩
        · rw [if_neg hs] at h
          have hv : s = v := by simpa using h
          subst hv
          exact ⟨hs, d, List.mem_cons_self _ _, hl⟩

theorem firstTruthyDep_none_spec {dirty : DirtyMap} {deps : List String}
    (h : firstTruthyDep dirty deps = .ok none) :
    ∀ d ∈ deps, alookup dirty d = some none ∨ alookup dirty d = some (some "") := by
  induction deps with
  | nil => simp
  | cons d rest ih =>
    intro x hx
    cases hl : alookup dirty d with
    | none => rw [firstTruthyDep, hl] at h; exact absurd h (by simp)
    | some mo =>
      cases mo with
      | none =>
        rw [firstTruthyDep, hl] at h
        rcases List.mem_cons.1 hx with hx | hx
        · rw [hx]; exact Or.inl hl
        · exact ih h x hx
      | some s =>
        rw [firstTruthyDep, hl] at h
        dsimp only at h
        by_cases hs : s = ""
        · rw [if_pos hs] at h
          rcases List.mem_cons.1 hx with hx | hx
          · rw [hx, hl, hs]; exact Or.inr rfl
          · exact ih h x hx
        · rw [if_neg hs] at h
          exact absurd h (by simp)

theorem firstTruthyDep_allnone {dirty : DirtyMap} {deps : List String}
    (h : ∀ d ∈ deps, alookup dirty d = some none) :
    firstTruthyDep dirty deps = .ok none := by
  induction deps with
  | nil => rfl
  | cons d rest ih =>
    rw [firstTruthyDep, h d (List.mem_cons_self _ _)]
    exact ih (fun x hx => h x (List.mem_cons_of_mem _ hx))

theorem seedDirty_sound (fs : FileSystem) (ms : ModulesMap) :
    MarksSound fs ms (seedDirty fs ms) := by
  intro p hp r hr
  rw [seedDirty, List.mem_map] at hp
  obtain ⟨q, hq, hqe⟩ := hp
  have h₁ : p.1 = q.1 := by rw [← hqe]
  have h₂ : p.2 = seedEntry fs q.1 q.2 := by rw [← hqe]
  rw [h₂] at hr
  have hrq : r = q.1 := by
    cases hv : q.2 with
    | none => rw [hv] at hr; simp [seedEntry] at hr
    | some m =>
      rw [hv, seedEntry] at hr
      by_cases hc : ¬ fs.pathExists m.path = true ∨ ¬ m.modification_time = fs.stMtime m.path
      · rw [if_pos hc] at hr
        have hqr : q.1 = r := by simpa using hr
        exact hqr.symm
      · rw [if_neg hc] at hr
        simp at hr
  constructor
  · have hmem : (q.1, seedEntry fs q.1 q.2) ∈ seedDirty fs ms := by
      rw [seedDirty, List.mem_map]
      exact ⟨q, hq, rfl⟩
    rw [hr] at hmem
    rw [hrq] at hmem ⊢
    exact hmem
  · exact Or.inl (by rw [h₁, hrq])

theorem passGo_sound {fs : FileSystem} {ms : ModulesMap} {dirty d₁ : DirtyMap}
    {ch ch₁ : Bool} {scan : ModulesMap}
    (hscan : ∀ p ∈ scan, p ∈ ms)
    (hinv : MarksSound fs ms dirty)
    (h : propagatePassGo dirty ch scan = .ok (d₁, ch₁)) :
    MarksSound fs ms d₁ := by
  induction scan generalizing dirty ch with
  | nil =>
    simp [propagatePassGo] at h
    rw [← h.1]
    exact hinv
  | cons p rest ih =>
    obtain ⟨name, meta⟩ := p
    have hrest : ∀ q ∈ rest, q ∈ ms := fun q hq => hscan q (List.mem_cons_of_mem _ hq)
    cases hl : alookup dirty name with
    | none => rw [passGo_cons_keyerr hl] at h; exact absurd h (by simp)
    | some curr =>
      cases curr with
      | some s => rw [passGo_cons_notclean hl] at h; exact ih hrest hinv h
      | none =>
        cases meta with
        | none => rw [passGo_cons_tomb hl] at h; exact ih hrest hinv h
        | some m =>
          rw [passGo_cons_record hl] at h
          cases hf : firstTruthyDep dirty m.dependencies with
          | error e => rw [hf] at h; exact absurd h (by simp)
          | ok o =>
            rw [hf] at h
            cases o with
            | none => exact ih hrest hinv h
            | some v =>
              simp only at h
              refine ih hrest ?_ h
              intro q hq r hr
              rcases mem_aupdate hq with hq | hq
              · exact hinv q hq r hr
              · obtain ⟨hv, dep, hdep, hldep⟩ := firstTruthyDep_found hf
                have hpair := hinv (dep, some v) (alookup_mem hldep) v rfl
                have hrv : r = v := by
                  rw [hq.2] at hr
                  simpa using hr.symm
                subst hrv
                refine ⟨hpair.1, Or.inr ?_⟩
                have hedge : depEdge ms q.1 dep :=
                  ⟨m, by rw [hq.1]; exact hscan (name, some m) (List.mem_cons_self _ _),
                    hdep⟩
                rcases hpair.2 with hdv | hdv
                · rw [← hdv]
                  exact Relation.TransGen.single hedge
                · exact Relation.TransGen.head hedge hdv

theorem loop_sound {fs : FileSystem} {ms : ModulesMap} {dirty r : DirtyMap} {fuel : Nat}
    (hinv : MarksSound fs ms dirty)
    (h : propagateLoop ms fuel dirty = .ok r) :
    MarksSound fs ms r := by
  induction fuel generalizing dirty with
  | zero => exact absurd h (by simp [propagateLoop])
  | succ f ih =>
    cases hp : propagatePass ms dirty with
    | error e => rw [propagateLoop_succ_err hp] at h; exact absurd h (by simp)
    | ok out =>
      obtain ⟨d₁, changed⟩ := out
      have hs := passGo_sound (fun p hp => hp) hinv hp
      cases changed with
      | true =>
        rw [propagateLoop_succ_changed hp] at h
        exact ih hs h
      | false =>
        rw [propagateLoop_succ_done hp] at h
        have : d₁ = r := by simpa using h
        rw [← this]
        exact hs

theorem detectDirtyMap_sound {fs : FileSystem} {mm : PythonModulesMetadata}
    {dirty : DirtyMap} (h : detectDirtyMap fs mm = .ok dirty) :
    MarksSound fs mm.modules dirty :=
  loop_sound (seedDirty_sound fs mm.modules) h

theorem passGo_preserves_dirtymark {dirty d₁ : DirtyMap} {ch ch₁ : Bool}
    {scan : ModulesMap} {n r : String}
    (hmark : alookup dirty n = some (some r))
    (h : propagatePassGo dirty ch scan = .ok (d₁, ch₁)) :
    alookup d₁ n = some (some r) := by
  induction scan generalizing dirty ch with
  | nil =>
    simp [propagatePassGo] at h
    rw [← h.1]
    exact hmark
  | cons p rest ih =>
    obtain ⟨name, meta⟩ := p
    cases hl : alookup dirty name with
    | none => rw [passGo_cons_keyerr hl] at h; exact absurd h (by simp)
    | some curr =>
      cases curr with
      | some s => rw [passGo_cons_notclean hl] at h; exact ih hmark h
      | none =>
        cases meta with
        | none => rw [passGo_cons_tomb hl] at h; exact ih hmark h
        | some m =>
          rw [passGo_cons_record hl] at h
          cases hf : firstTruthyDep dirty m.dependencies with
          | error e => rw [hf] at h; exact absurd h (by simp)
          | ok o =>
            rw [hf] at h
            cases o with
            | none => exact ih hmark h
            | some v =>
              simp only at h
              have hne : ¬ n = name := by
                intro he
                rw [he, hl] at hmark
                exact absurd hmark (by simp)
              refine ih ?_ h
              rw [alookup_aupdate_ne _ _ hne]
              exact hmark

theorem loop_preserves_dirtymark {ms : ModulesMap} {dirty d₁ : DirtyMap} {fuel : Nat}
    {n r : String}
    (hmark : alookup dirty n = some (some r))
    (h : propagateLoop ms fuel dirty = .ok d₁) :
    alookup d₁ n = some (some r) := by
  induction fuel generalizing dirty with
  | zero => exact absurd h (by simp [propagateLoop])
  | succ f ih =>
    cases hp : propagatePass ms dirty with
    | error e => rw [propagateLoop_succ_err hp] at h; exact absurd h (by simp)
    | ok out =>
      obtain ⟨d₂, changed⟩ := out
      have hk := passGo_preserves_dirtymark hmark hp
      cases changed with
      | true =>
        rw [propagateLoop_succ_changed hp] at h
        exact ih hk h
      | false =>
        rw [propagateLoop_succ_done hp] at h
        have : d₂ = d₁ := by simpa using h
        rw [← this]
        exact hk

theorem passGo_preserves_at {dirty d₁ : DirtyMap} {ch ch₁ : Bool}
    {scan : ModulesMap} {n : String}
    (hno : ∀ m : PythonModuleMetadata, ¬ (n, some m) ∈ scan)
    (h : propagatePassGo dirty ch scan = .ok (d₁, ch₁)) :
    alookup d₁ n = alookup dirty n := by
  induction scan generalizing dirty ch with
  | nil =>
    simp [propagatePassGo] at h
    rw [h.1]
  | cons p rest ih =>
    obtain ⟨name, meta⟩ := p
    have hrest : ∀ m : PythonModuleMetadata, ¬ (n, some m) ∈ rest :=
      fun m hm => hno m (List.mem_cons_of_mem _ hm)
    cases hl : alookup dirty name with
    | none => rw [passGo_cons_keyerr hl] at h; exact absurd h (by simp)
    | some curr =>
      cases curr with
      | some s => rw [passGo_cons_notclean hl] at h; exact ih hrest h
      | none =>
        cases meta with
        | none => rw [passGo_cons_tomb hl] at h; exact ih hrest h
        | some m =>
          rw [passGo_cons_record hl] at h
          cases hf : firstTruthyDep dirty m.dependencies with
          | error e => rw [hf] at h; exact absurd h (by simp)
          | ok o =>
            rw [hf] at h
            cases o with
            | none => exact ih hrest h
            | some v =>
              simp only at h
              have hne : ¬ n = name := by
                intro he
                exact hno m (by rw [he]; exact List.mem_cons_self _ _)
              rw [ih hrest h, alookup_aupdate_ne _ _ hne]

theorem loop_preserves_tombstone {ms : ModulesMap} {dirty d₁ : DirtyMap} {fuel : Nat}
    {n : String}
    (hno : ∀ m : PythonModuleMetadata, ¬ (n, some m) ∈ ms)
    (h : propagateLoop ms fuel dirty = .ok d₁) :
    alookup d₁ n = alookup dirty n := by
  induction fuel generalizing dirty with
  | zero => exact absurd h (by simp [propagateLoop])
  | succ f ih =>
    cases hp : propagatePass ms dirty with
    | error e => rw [propagateLoop_succ_err hp] at h; exact absurd h (by simp)
    | ok out =>
      obtain ⟨d₂, changed⟩ := out
      have hk := passGo_preserves_at hno hp
      cases changed with
      | true =>
        rw [propagateLoop_succ_changed hp] at h
        rw [ih h, hk]
      | false =>
        rw [propagateLoop_succ_done hp] at h
        have : d₂ = d₁ := by simpa using h
        rw [← this, hk]

theorem passGo_nochange_spec {dirty d₁ : DirtyMap} {ch : Bool} {scan : ModulesMap}
    (h : propagatePassGo dirty ch scan = .ok (d₁, false)) :
    ∀ name m, (name, some m) ∈ scan → alookup dirty name = some none →
      firstTruthyDep dirty m.dependencies = .ok none := by
  induction scan generalizing dirty ch with
  | nil => simp
  | cons p rest ih =>
    obtain ⟨name₁, meta₁⟩ := p
    intro name m hmem hclean
    cases hl : alookup dirty name₁ with
    | none => rw [passGo_cons_keyerr hl] at h; exact absurd h (by simp)
    | some curr =>
      cases curr with
      | some s =>
        rw [passGo_cons_notclean hl] at h
        rcases List.mem_cons.1 hmem with hmem | hmem
        · rw [Prod.mk.injEq] at hmem
          rw [hmem.1] at hclean
          rw [hclean] at hl
          exact absurd hl (by simp)
        · exact ih h name m hmem hclean
      | none =>
        cases meta₁ with
        | none =>
          rw [passGo_cons_tomb hl] at h
          rcases List.mem_cons.1 hmem with hmem | hmem
          · rw [Prod.mk.injEq] at hmem
            exact absurd hmem.2 (by simp)
          · exact ih h name m hmem hclean
        | some m₁ =>
          rw [passGo_cons_record hl] at h
          cases hf : firstTruthyDep dirty m₁.dependencies with
          | error e => rw [hf] at h; exact absurd h (by simp)
          | ok o =>
            rw [hf] at h
            cases o with
            | none =>
              rcases List.mem_cons.1 hmem with hmem | hmem
              · rw [Prod.mk.injEq] at hmem
                rw [Option.some.injEq] at hmem
                rw [hmem.2]
                exact hf
              · exact ih h name m hmem hclean
            | some v =>
              simp only at h
              exact absurd ((propagatePassGo_bool h).1 rfl) (by simp)

theorem passGo_allclean {dirty : DirtyMap} {ch : Bool} {scan : ModulesMap}
    (hkeys : ∀ n ∈ akeys scan, alookup dirty n = some none)
    (hdeps : ∀ p ∈ scan, ∀ m, p.2 = some m →
      ∀ d ∈ m.dependencies, alookup dirty d = some none) :
    propagatePassGo dirty ch scan = .ok (dirty, ch) := by
  induction scan with
  | nil => rfl
  | cons p rest ih =>
    obtain ⟨name, meta⟩ := p
    have hl : alookup dirty name = some none :=
      hkeys name (by rw [akeys_cons]; exact List.mem_cons_self _ _)
    have hkeys₁ : ∀ n ∈ akeys rest, alookup dirty n = some none :=
      fun n hn => hkeys n (by rw [akeys_cons]; exact List.mem_cons_of_mem _ hn)
    have hdeps₁ : ∀ p ∈ rest, ∀ m, p.2 = some m →
        ∀ d ∈ m.dependencies, alookup dirty d = some none :=
      fun q hq => hdeps q (List.mem_cons_of_mem _ hq)
    cases meta with
    | none =>
      rw [passGo_cons_tomb hl]
      exact ih hkeys₁ hdeps₁
    | some m =>
      rw [passGo_cons_record hl]
      rw [firstTruthyDep_allnone
        (hdeps (name, some m) (List.mem_cons_self _ _) m rfl)]
      exact ih hkeys₁ hdeps₁

theorem propagateLoop_keys {ms : ModulesMap} {fuel : Nat} {d r : DirtyMap}
    (h : propagateLoop ms fuel d = .ok r) : akeys r = akeys d := by
  induction fuel generalizing d with
  | zero => exact absurd h (by simp [propagateLoop])
  | succ f ih =>
    cases hp : propagatePass ms d with
    | error e => rw [propagateLoop_succ_err hp] at h; exact absurd h (by simp)
    | ok out =>
      obtain ⟨d₁, changed⟩ := out
      cases changed with
      | true =>
        rw [propagateLoop_succ_changed hp] at h
        rw [ih h, propagatePassGo_keys hp]
      | false =>
        rw [propagateLoop_succ_done hp] at h
        have : d₁ = r := by simpa using h
        rw [← this, propagatePassGo_keys hp]

theorem detectDirtyMap_keys {fs : FileSystem} {mm : PythonModulesMetadata}
    {dirty : DirtyMap} (h : detectDirtyMap fs mm = .ok dirty) :
    akeys dirty = akeys mm.modules := by
  rw [detectDirtyMap] at h
  rw [propagateLoop_keys h, akeys_seedDirty]

theorem detectDirtyMap_ok_of_closed (fs : FileSystem) (mm : PythonModulesMetadata)
    (hclosed : DepClosed mm.modules) :
    ∃ dirty, detectDirtyMap fs mm = .ok dirty := by
  rw [detectDirtyMap]
  refine propagateLoop_terminates (akeys_seedDirty fs mm.modules) hclosed ?_
  have h₁ := countNone_le_length (seedDirty fs mm.modules)
  have h₂ : (seedDirty fs mm.modules).length = mm.modules.length := List.length_map _ _
  omega

theorem detect_ok_of_closed (fs : FileSystem) (cfs : List String)
    (mm : PythonModulesMetadata) (hclosed : DepClosed mm.modules) :
    ∃ out, detect_new_and_dirty_files fs cfs mm = .ok out := by
  obtain ⟨dirty, hdirty⟩ := detectDirtyMap_ok_of_closed fs mm hclosed
  have hdk : akeys dirty = akeys mm.modules := detectDirtyMap_keys hdirty
  obtain ⟨reach, hreach⟩ := @reachLoop_terminates mm.modules
    (initialReachable (pathToName mm.modules) cfs) (mm.modules.length + 1)
    initialReachable_sub initialReachable_nodup hclosed
    (by
      have h₃ : (akeys mm.modules).length = mm.modules.length := List.length_map _ _
      omega)
  obtain ⟨df, hdf⟩ := @buildDirtyFiles_ok (pathToName mm.modules) dirty cfs
    (fun cf m hm => by
      obtain ⟨meta, hmem, _⟩ := pathToName_value_mem hm
      rw [hdk]
      exact mem_akeys_of_mem hmem)
  obtain ⟨dp, hdp⟩ := @dirtyPathsGo_ok mm.modules [] dirty
    (fun p hp => by
      rw [← hdk]
      exact mem_akeys_of_mem hp)
  exact ⟨_, detect_eq hdirty hreach hdf hdp⟩

theorem dirty_mark_value_in_keys {fs : FileSystem} {mm : PythonModulesMetadata}
    {dirty : DirtyMap} {m r : String}
    (h : detectDirtyMap fs mm = .ok dirty)
    (hm : alookup dirty m = some (some r)) : r ∈ akeys mm.modules := by
  have hs := detectDirtyMap_sound h (m, some r) (alookup_mem hm) r rfl
  have := mem_akeys_of_mem hs.1
  rw [akeys_seedDirty] at this
  exact this

theorem buildDirtyFiles_nil_ptn (dirty : DirtyMap) (cfs : List String) :
    buildDirtyFiles [] dirty cfs = .ok (cfs.map (fun cf => (cf, "new"))) := by
  induction cfs with
  | nil => rfl
  | cons cf rest ih =>
    have h₀ : alookup ([] : List (String × String)) cf = none := rfl
    rw [bdf_cons_new h₀, ih]
    rfl

/-- C3: for every snapshot whose dependency names are all keys (as in every
snapshot the tool itself persists), the dirty-propagation fixpoint of
`detect_new_and_dirty_files` completes within the `length + 1` scan passes the
embedding allots — it does not run out of fuel, i.e. a scan pass with no
change is reached; a dirty mark, once set, is never reversed by a later pass
(marks move from clean to dirty only); and on the two-module cycle where `a`
depends on `b`, `b` depends on `a` and only `a` is seeded dirty-self, the loop
exits with both `a` and `b` marked dirty. -/
theorem c3_propagation_terminates_and_cycle :
    (∀ (fs : FileSystem) (mm : PythonModulesMetadata), DepClosed mm.modules →
      ∃ d, detectDirtyMap fs mm = .ok d) ∧
    (∀ (dirty d₁ : DirtyMap) (ch ch₁ : Bool) (scan : ModulesMap) (n r : String),
      alookup dirty n = some (some r) →
      propagatePassGo dirty ch scan = .ok (d₁, ch₁) →
      alookup d₁ n = some (some r)) ∧
    (seedDirty ⟨fun _ => true, fun p => if p = "fa" then 1 else 0⟩
        [("a", some ⟨0, "fa", ["b"]⟩), ("b", some ⟨0, "fb", ["a"]⟩)] =
      [("a", some "a"), ("b", none)] ∧
    detectDirtyMap ⟨fun _ => true, fun p => if p = "fa" then 1 else 0⟩
        ⟨[("a", some ⟨0, "fa", ["b"]⟩), ("b", some ⟨0, "fb", ["a"]⟩)], ""⟩ =
      .ok [("a", some "a"), ("b", some "a")]) :=
  ⟨fun fs mm h => detectDirtyMap_ok_of_closed fs mm h,
   fun _ _ _ _ _ _ _ hm hp => passGo_preserves_dirtymark hm hp,
   by rfl, by rfl⟩

/-- C3 witness: the hypotheses of the universal part discharged on the
concrete two-module cycle. -/
theorem c3_witness :
    DepClosed ([("a", some ⟨0, "fa", ["b"]⟩), ("b", some ⟨0, "fb", ["a"]⟩)] :
      ModulesMap) ∧
    ∃ d, detectDirtyMap ⟨fun _ => true, fun p => if p = "fa" then 1 else 0⟩
        ⟨[("a", some ⟨0, "fa", ["b"]⟩), ("b", some ⟨0, "fb", ["a"]⟩)], ""⟩ = .ok d :=
  ⟨by decide,
   c3_propagation_terminates_and_cycle.1
     ⟨fun _ => true, fun p => if p = "fa" then 1 else 0⟩
     ⟨[("a", some ⟨0, "fa", ["b"]⟩), ("b", some ⟨0, "fb", ["a"]⟩)], ""⟩
     (by decide)⟩

/-- C2 counterexample: a snapshot with tombstone `t` and a module `a` whose
file is unchanged and which depends on `t`.  The claim requires `t` to be
marked dirty-self and `a` dirty via `t`; the code seeds the tombstone clean
(`meta is not None` fails), never marks it, and returns an empty dirty map —
both final marks are `None`, the dirty-file map is empty and the tombstone is
even carried forward in the surviving snapshot. -/
theorem c2_counterexample :
    detectDirtyMap ⟨fun _ => true, fun _ => 0⟩
        ⟨[("t", none), ("a", some ⟨0, "fa", ["t"]⟩)], ""⟩ =
      .ok [("t", none), ("a", none)] ∧
    detect_new_and_dirty_files ⟨fun _ => true, fun _ => 0⟩ ["fa"]
        ⟨[("t", none), ("a", some ⟨0, "fa", ["t"]⟩)], ""⟩ =
      .ok ([], [("t", none), ("a", some ⟨0, "fa", ["t"]⟩)], []) :=
  ⟨by rfl, by rfl⟩

/-- C2 (amended): a tombstone is never marked dirty.  For every snapshot with
unique module names, a name recorded as a tombstone is seeded clean (the
`meta is not None` guard fails) and the propagation loop never updates it
(updates only touch names carrying a record), so its final mark is `None` on
every run: it is not dirty-self and, its mark being falsy, it never
propagates dirtiness to a dependent. -/
theorem c2_tombstones_stay_clean (fs : FileSystem) (mm : PythonModulesMetadata)
    (n : String) (dirty : DirtyMap)
    (hnd : (akeys mm.modules).Nodup)
    (htomb : alookup mm.modules n = some none)
    (h : detectDirtyMap fs mm = .ok dirty) :
    alookup dirty n = some none := by
  rw [detectDirtyMap] at h
  have hno : ∀ m : PythonModuleMetadata, ¬ (n, some m) ∈ mm.modules := by
    intro m hm
    have := alookup_eq_of_mem_nodup hnd hm
    rw [htomb] at this
    exact absurd this (by simp)
  rw [loop_preserves_tombstone hno h, alookup_seedDirty, htomb]
  rfl

/-- C2 witness: the amended theorem applied to the concrete tombstone
snapshot. -/
theorem c2_witness :
    ((akeys ([("t", none), ("a", some ⟨0, "fa", ["t"]⟩)] : ModulesMap)).Nodup ∧
      alookup ([("t", none), ("a", some ⟨0, "fa", ["t"]⟩)] : ModulesMap) "t" =
        some none) ∧
    alookup ([("t", none), ("a", none)] : DirtyMap) "t" = some none :=
  ⟨⟨by decide, by rfl⟩,
   c2_tombstones_stay_clean ⟨fun _ => true, fun _ => 0⟩
     ⟨[("t", none), ("a", some ⟨0, "fa", ["t"]⟩)], ""⟩ "t"
     ([("t", none), ("a", none)] : DirtyMap) (by decide) (by rfl) (by rfl)⟩

/-- C1 counterexample: a snapshot whose single module is named `""` with a
changed file.  Its mark after propagation is `some ""` — dirty-self — yet the
returned `dirty_files` map is empty, because the final comprehension guards on
Python truthiness of the mark and `""` is falsy; the claim requires the file
to be tagged "changed". -/
theorem c1_counterexample :
    detectDirtyMap ⟨fun _ => true, fun p => if p = "f" then 1 else 0⟩
        ⟨[("", some ⟨0, "f", []⟩)], ""⟩ = .ok [("", some "")] ∧
    detect_new_and_dirty_files ⟨fun _ => true, fun p => if p = "f" then 1 else 0⟩
        ["f"] ⟨[("", some ⟨0, "f", []⟩)], ""⟩ = .ok ([], [], ["f"]) :=
  ⟨by rfl, by rfl⟩

/-- C1 (amended): for every snapshot whose module names are all nonempty, the
`dirty_files` map returned by `detect_new_and_dirty_files` is exactly the
claimed classification: a current file with no snapshot module mapping to it
is tagged "new"; one whose module carries its own name as final mark
(dirty-self) is tagged "changed"; one whose module carries another module's
name `r` as mark is tagged "dependency r changed"; one whose module's mark is
`None` (clean) is absent; every entry of the map is a current file; and with
an empty snapshot every current file is tagged "new". -/
theorem c1_dirty_files_characterization
    (fs : FileSystem) (cfs : List String) (mm : PythonModulesMetadata)
    (df : List (String × String)) (cm : ModulesMap) (dp : List String)
    (dirty : DirtyMap)
    (hnn : ∀ k ∈ akeys mm.modules, ¬ k = "")
    (hdet : detect_new_and_dirty_files fs cfs mm = .ok (df, cm, dp))
    (hdirty : detectDirtyMap fs mm = .ok dirty) :
    (∀ cf ∈ cfs,
      (alookup (pathToName mm.modules) cf = none → alookup df cf = some "new") ∧
      (∀ m, alookup (pathToName mm.modules) cf = some m →
        (alookup dirty m = some (some m) → alookup df cf = some "changed") ∧
        (∀ r, alookup dirty m = some (some r) → ¬ r = m →
          alookup df cf = some ("dependency " ++ r ++ " changed")) ∧
        (alookup dirty m = some none → alookup df cf = none))) ∧
    (∀ p ∈ df, p.1 ∈ cfs) ∧
    (mm.modules = [] → df = cfs.map (fun cf => (cf, "new"))) := by
  obtain ⟨dirty₂, reach, dp₂, hd₂, hr₂, hb, hp₂, hout⟩ := detect_inv hdet
  rw [hdirty] at hd₂
  have hdd : dirty = dirty₂ := Except.ok.inj hd₂
  subst hdd
  obtain ⟨hspec, hdom⟩ := buildDirtyFiles_spec hb
  refine ⟨?_, hdom, ?_⟩
  · intro cf hcf
    have htag := hspec cf hcf
    refine ⟨?_, ?_⟩
    · intro hnone
      rw [htag, dirtyTagOf_new hnone]
    · intro m hm
      refine ⟨?_, ?_, ?_⟩
      · intro hmm
        have hmk : m ∈ akeys mm.modules := dirty_mark_value_in_keys hdirty hmm
        rw [htag, dirtyTagOf_tag hm hmm (hnn m hmk)]
        simp
      · intro r hrr hrne
        have hrk : r ∈ akeys mm.modules := dirty_mark_value_in_keys hdirty hrr
        rw [htag, dirtyTagOf_tag hm hrr (hnn r hrk)]
        simp [hrne]
      · intro hclean
        rw [htag, dirtyTagOf_clean hm hclean]
  · intro hnil
    rw [hnil] at hb
    rw [show pathToName [] = [] from rfl] at hb
    rw [buildDirtyFiles_nil_ptn] at hb
    exact (Except.ok.inj hb).symm

/-- C1 witness: the amended classification applied to a concrete snapshot with
one changed module `a` backing file `f`, and a new file `g`. -/
theorem c1_witness :
    ((∀ k ∈ akeys ([("a", some ⟨0, "f", []⟩)] : ModulesMap), ¬ k = "") ∧
      detect_new_and_dirty_files ⟨fun _ => true, fun p => if p = "f" then 1 else 0⟩
        ["f", "g"] ⟨[("a", some ⟨0, "f", []⟩)], ""⟩ =
        .ok ([("f", "changed"), ("g", "new")], [], ["f"])) ∧
    alookup ([("f", "changed"), ("g", "new")] : List (String × String)) "f" =
      some "changed" :=
  ⟨⟨by decide, by rfl⟩,
   (((c1_dirty_files_characterization
        ⟨fun _ => true, fun p => if p = "f" then 1 else 0⟩ ["f", "g"]
        ⟨[("a", some ⟨0, "f", []⟩)], ""⟩
        [("f", "changed"), ("g", "new")] [] ["f"] [("a", some "a")]
        (by decide) (by rfl) (by rfl)).1 "f"
      (by simp)).2 "a" (by rfl)).1 (by rfl)⟩

theorem seedEntry_none_of_unchanged {fs : FileSystem} {v : Option PythonModuleMetadata}
    (n : String) (h : recordUnchanged fs v = true) : seedEntry fs n v = none := by
  cases v with
  | none => rfl
  | some m =>
    rw [recordUnchanged, Bool.and_eq_true, decide_eq_true_iff] at h
    rw [seedEntry, if_neg]
    push_neg
    exact ⟨h.1, h.2⟩

theorem seed_lookup_none {fs : FileSystem} {ms : ModulesMap} {k : String}
    (hall : ∀ p ∈ ms, recordUnchanged fs p.2 = true) (hk : k ∈ akeys ms) :
    alookup (seedDirty fs ms) k = some none := by
  obtain ⟨v, hv⟩ := Option.isSome_iff_exists.1 ((alookup_isSome_iff_mem ms k).2 hk)
  rw [alookup_seedDirty, hv]
  rw [Option.map_some']
  rw [seedEntry_none_of_unchanged k (hall (k, v) (alookup_mem hv))]

theorem buildDirtyFiles_allclean {ptn : List (String × String)} {dirty : DirtyMap}
    {cfs : List String}
    (h : ∀ cf ∈ cfs, ∃ m, alookup ptn cf = some m ∧ alookup dirty m = some none) :
    buildDirtyFiles ptn dirty cfs = .ok [] := by
  induction cfs with
  | nil => rfl
  | cons cf rest ih =>
    obtain ⟨m, hm, hmc⟩ := h cf (List.mem_cons_self _ _)
    rw [bdf_cons_clean hm hmc]
    exact ih (fun x hx => h x (List.mem_cons_of_mem _ hx))

/-- C6: when nothing changed since the snapshot — every record's file is
present with exactly the recorded modification time, every current file is
the recorded path of some module, and every snapshot module is reachable from
the current files — `detect_new_and_dirty_files` returns an empty dirty-file
map, the input modules map unchanged as the surviving snapshot, and no dirty
backing paths: a second run with zero changes is a no-op. -/
theorem c6_idempotence
    (fs : FileSystem) (cfs : List String) (mm : PythonModulesMetadata)
    (r : List String)
    (hnd : (akeys mm.modules).Nodup)
    (hclean : ∀ p ∈ mm.modules, recordUnchanged fs p.2 = true)
    (hcur : ∀ cf ∈ cfs, (alookup (pathToName mm.modules) cf).isSome)
    (hreach : reachLoop mm.modules (mm.modules.length + 1)
      (initialReachable (pathToName mm.modules) cfs) = .ok r)
    (hcov : ∀ k ∈ akeys mm.modules, k ∈ r) :
    detect_new_and_dirty_files fs cfs mm = .ok ([], mm.modules, []) := by
  have hseedl : ∀ k ∈ akeys mm.modules, alookup (seedDirty fs mm.modules) k = some none :=
    fun k hk => seed_lookup_none hclean hk
  have hfix := reachLoop_fix hreach
  have hrsub : ∀ n ∈ r, n ∈ akeys mm.modules := reachPassGo_mem_keys hfix
  have hstable := reachPassGo_stable hfix (le_refl r.length)
  have hdeps : ∀ p ∈ mm.modules, ∀ m, p.2 = some m →
      ∀ d ∈ m.dependencies, alookup (seedDirty fs mm.modules) d = some none := by
    intro p hp m hm d hd
    have hpm : (p.1, p.2) ∈ mm.modules := by simpa using hp
    have hl : alookup mm.modules p.1 = some (some m) := by
      have h₀ := alookup_eq_of_mem_nodup hnd hpm
      rw [hm] at h₀
      exact h₀
    have hin : p.1 ∈ r := hcov p.1 (mem_akeys_of_mem hp)
    have hdr : d ∈ r := hstable.2 p.1 hin m hl d hd
    exact hseedl d (hrsub d hdr)
  have hpass : propagatePass mm.modules (seedDirty fs mm.modules) =
      .ok (seedDirty fs mm.modules, false) := by
    have h₀ := @passGo_allclean (seedDirty fs mm.modules) false mm.modules
      (fun n hn => hseedl n hn) hdeps
    exact h₀
  have hdirty : detectDirtyMap fs mm = .ok (seedDirty fs mm.modules) := by
    rw [detectDirtyMap]
    exact propagateLoop_succ_done hpass
  have hdf : buildDirtyFiles (pathToName mm.modules) (seedDirty fs mm.modules) cfs =
      .ok [] := by
    refine buildDirtyFiles_allclean ?_
    intro cf hcf
    obtain ⟨m, hm⟩ := Option.isSome_iff_exists.1 (hcur cf hcf)
    obtain ⟨meta, hmem, _⟩ := pathToName_value_mem hm
    exact ⟨m, hm, hseedl m (mem_akeys_of_mem hmem)⟩
  have hdp : dirtyPathsGo mm.modules [] (seedDirty fs mm.modules) = .ok [] := by
    refine dirtyPathsGo_allclean ?_
    intro p hp
    rw [seedDirty, List.mem_map] at hp
    obtain ⟨q, hq, hqe⟩ := hp
    rw [← hqe]
    exact seedEntry_none_of_unchanged q.1 (hclean q hq)
  have hcm : cleanedModules mm.modules r (seedDirty fs mm.modules) = mm.modules := by
    refine cleanedModules_eq_self ?_
    intro p hp
    exact ⟨hcov p.1 (mem_akeys_of_mem hp), hseedl p.1 (mem_akeys_of_mem hp)⟩
  have hfin := detect_eq hdirty hreach hdf hdp
  rw [hcm] at hfin
  exact hfin

/-- C6 witness: idempotence applied to a concrete unchanged two-module
snapshot (`a` backing `fa` depending on `b` backing `fb`). -/
theorem c6_witness :
    ((akeys ([("a", some ⟨0, "fa", ["b"]⟩), ("b", some ⟨0, "fb", []⟩)] :
        ModulesMap)).Nodup ∧
      reachLoop [("a", some ⟨0, "fa", ["b"]⟩), ("b", some ⟨0, "fb", []⟩)] 3
        (initialReachable
          (pathToName [("a", some ⟨0, "fa", ["b"]⟩), ("b", some ⟨0, "fb", []⟩)])
          ["fa", "fb"]) = .ok ["a", "b"]) ∧
    detect_new_and_dirty_files ⟨fun _ => true, fun _ => 0⟩ ["fa", "fb"]
      ⟨[("a", some ⟨0, "fa", ["b"]⟩), ("b", some ⟨0, "fb", []⟩)], ""⟩ =
      .ok ([], [("a", some ⟨0, "fa", ["b"]⟩), ("b", some ⟨0, "fb", []⟩)], []) :=
  ⟨⟨by decide, by rfl⟩,
   c6_idempotence ⟨fun _ => true, fun _ => 0⟩ ["fa", "fb"]
     ⟨[("a", some ⟨0, "fa", ["b"]⟩), ("b", some ⟨0, "fb", []⟩)], ""⟩ ["a", "b"]
     (by decide) (by decide) (by decide) (by rfl) (by decide)⟩

/-- C4 counterexample: the only changed module is named `""` (backing file
`f`), and `b` (backing unchanged file `g`) depends on it.  The claim requires
`f` tagged "changed" and `g` tagged as dirty via the root cause; the code
marks `""` dirty-self but its mark is falsy, so nothing propagates and the
returned dirty-file map is empty. -/
theorem c4_counterexample :
    detectDirtyMap ⟨fun _ => true, fun p => if p = "f" then 1 else 0⟩
        ⟨[("", some ⟨0, "f", []⟩), ("b", some ⟨0, "g", [""]⟩)], ""⟩ =
      .ok [("", some ""), ("b", none)] ∧
    detect_new_and_dirty_files ⟨fun _ => true, fun p => if p = "f" then 1 else 0⟩
        ["f", "g"] ⟨[("", some ⟨0, "f", []⟩), ("b", some ⟨0, "g", [""]⟩)], ""⟩ =
      .ok ([], [("b", some ⟨0, "g", [""]⟩)], ["f"]) :=
  ⟨by rfl, by rfl⟩

/-- C4 (amended): in a snapshot with unique keys and injective recorded paths
in which exactly one module `A` — with a nonempty name — has a record whose
file exists but whose recorded modification time differs, while every other
record is present and unchanged: `A`'s file (when current) is tagged
"changed"; the file of every module that transitively depends on `A` is
tagged "dependency A changed" (the reason names `A`, the root cause); and the
file of every module that neither is `A` nor transitively depends on it is
absent from `dirty_files`. -/
theorem c4_single_touch
    (fs : FileSystem) (cfs : List String) (mm : PythonModulesMetadata)
    (A : String) (metaA : PythonModuleMetadata)
    (df : List (String × String)) (cm : ModulesMap) (dp : List String)
    (dirty : DirtyMap)
    (hA : alookup mm.modules A = some (some metaA))
    (hAfile : fs.pathExists metaA.path = true)
    (hAch : ¬ metaA.modification_time = fs.stMtime metaA.path)
    (hothers : ∀ p ∈ mm.modules, ¬ p.1 = A → recordUnchanged fs p.2 = true)
    (hAne : ¬ A = "")
    (hinj : ∀ p ∈ mm.modules, ∀ q ∈ mm.modules,
      recordPath p.2 = recordPath q.2 → ¬ recordPath p.2 = none → p.1 = q.1)
    (hdet : detect_new_and_dirty_files fs cfs mm = .ok (df, cm, dp))
    (hdirty : detectDirtyMap fs mm = .ok dirty) :
    (metaA.path ∈ cfs → alookup df metaA.path = some "changed") ∧
    (∀ cf ∈ cfs, ∀ m, alookup (pathToName mm.modules) cf = some m →
      (¬ m = A → Relation.TransGen (depEdge mm.modules) m A →
        alookup df cf = some ("dependency " ++ A ++ " changed")) ∧
      (¬ m = A → ¬ Relation.TransGen (depEdge mm.modules) m A →
        alookup df cf = none)) := by
  have hloop := hdirty
  rw [detectDirtyMap] at hloop
  have hseed_only : ∀ r, (r, some r) ∈ seedDirty fs mm.modules → r = A := by
    intro r hr
    rw [seedDirty, List.mem_map] at hr
    obtain ⟨q, hq, hqe⟩ := hr
    rw [Prod.mk.injEq] at hqe
    obtain ⟨hq1, hq2⟩ := hqe
    by_contra hne
    have hun := hothers q hq (by rw [hq1]; exact hne)
    rw [seedEntry_none_of_unchanged q.1 hun] at hq2
    exact absurd hq2 (by simp)
  have hseedA : alookup (seedDirty fs mm.modules) A = some (some A) := by
    rw [alookup_seedDirty, hA, Option.map_some']
    rw [seedEntry, if_pos (Or.inr hAch)]
  have hmarkA : alookup dirty A = some (some A) :=
    loop_preserves_dirtymark hseedA hloop
  have hsound := detectDirtyMap_sound hdirty
  have hmark_char : ∀ n r, alookup dirty n = some (some r) →
      r = A ∧ (n = r ∨ Relation.TransGen (depEdge mm.modules) n r) := by
    intro n r h
    have hs := hsound (n, some r) (alookup_mem h) r rfl
    exact ⟨hseed_only r hs.1, hs.2⟩
  have hfix : propagatePass mm.modules dirty = .ok (dirty, false) :=
    propagateLoop_fix hloop
  have hdk : akeys dirty = akeys mm.modules := detectDirtyMap_keys hdirty
  have hstep : ∀ n c, depEdge mm.modules n c → alookup dirty c = some (some A) →
      alookup dirty n = some (some A) := by
    intro n c hedge hc
    obtain ⟨m, hnm, hcm⟩ := hedge
    have hnk : n ∈ akeys dirty := by
      rw [hdk]
      exact mem_akeys_of_mem hnm
    obtain ⟨v, hv⟩ := Option.isSome_iff_exists.1 ((alookup_isSome_iff_mem dirty n).2 hnk)
    cases v with
    | some r =>
      rw [(hmark_char n r hv).1] at hv
      exact hv
    | none =>
      have hspec := passGo_nochange_spec hfix n m hnm hv
      rcases firstTruthyDep_none_spec hspec c hcm with hcd | hcd
      · rw [hc] at hcd
        exact absurd hcd (by simp)
      · rw [hc] at hcd
        rw [Option.some.injEq, Option.some.injEq] at hcd
        exact absurd hcd hAne
  have hcomp : ∀ n, Relation.TransGen (depEdge mm.modules) n A →
      alookup dirty n = some (some A) := by
    intro n htr
    induction htr using Relation.TransGen.head_induction_on with
    | base hedge => exact hstep _ _ hedge hmarkA
    | ih hedge htrc ihc => exact hstep _ _ hedge ihc
  obtain ⟨dirty₂, reach, dp₂, hd₂, hr₂, hb, hp₂, hout⟩ := detect_inv hdet
  rw [hdirty] at hd₂
  have hdd : dirty = dirty₂ := Except.ok.inj hd₂
  subst hdd
  obtain ⟨hspec, hdom⟩ := buildDirtyFiles_spec hb
  constructor
  · intro hcfA
    have hptnA : alookup (pathToName mm.modules) metaA.path = some A := by
      obtain ⟨m, hm⟩ := Option.isSome_iff_exists.1
        (pathToName_key_isSome (alookup_mem hA) rfl)
      obtain ⟨meta₂, hmem₂, hpath₂⟩ := pathToName_value_mem hm
      have hmA : m = A := hinj (m, some meta₂) hmem₂ (A, some metaA) (alookup_mem hA)
        (by rw [show recordPath (some meta₂) = some meta₂.path from rfl,
              show recordPath (some metaA) = some metaA.path from rfl, hpath₂])
        (by rw [show recordPath (some meta₂) = some meta₂.path from rfl]; simp)
      rw [hmA] at hm
      exact hm
    rw [hspec metaA.path hcfA, dirtyTagOf_tag hptnA hmarkA hAne]
    simp
  · intro cf hcf m hm
    constructor
    · intro hmne htr
      have hmk := hcomp m htr
      rw [hspec cf hcf, dirtyTagOf_tag hm hmk hAne]
      rw [if_neg (fun h => hmne h.symm)]
    · intro hmne hntr
      obtain ⟨meta₂, hmem₂, _⟩ := pathToName_value_mem hm
      have hmk : m ∈ akeys dirty := by
        rw [hdk]
        exact mem_akeys_of_mem hmem₂
      obtain ⟨v, hv⟩ := Option.isSome_iff_exists.1 ((alookup_isSome_iff_mem dirty m).2 hmk)
      cases v with
      | none => rw [hspec cf hcf, dirtyTagOf_clean hm hv]
      | some r =>
        obtain ⟨hrA, hor⟩ := hmark_char m r hv
        subst hrA
        rcases hor with hor | hor
        · exact absurd hor hmne
        · exact absurd hor hntr

/-- C4 witness: the amended single-touch claim applied to the concrete
snapshot where only `a` (file `fa`) changed, `b` depends on `a`, and `c` is
independent. -/
theorem c4_witness :
    (¬ ("a" : String) = "" ∧
      alookup ([("a", some ⟨0, "fa", []⟩), ("b", some ⟨0, "fb", ["a"]⟩),
          ("c", some ⟨0, "fc", []⟩)] : ModulesMap) "a" = some (some ⟨0, "fa", []⟩)) ∧
    alookup ([("fa", "changed"), ("fb", "dependency a changed")] :
        List (String × String)) "fa" = some "changed" ∧
    alookup ([("fa", "changed"), ("fb", "dependency a changed")] :
        List (String × String)) "fb" = some ("dependency " ++ "a" ++ " changed") ∧
    alookup ([("fa", "changed"), ("fb", "dependency a changed")] :
        List (String × String)) "fc" = none := by
  have hmain := c4_single_touch
    ⟨fun _ => true, fun p => if p = "fa" then 1 else 0⟩ ["fa", "fb", "fc"]
    ⟨[("a", some ⟨0, "fa", []⟩), ("b", some ⟨0, "fb", ["a"]⟩),
      ("c", some ⟨0, "fc", []⟩)], ""⟩
    "a" ⟨0, "fa", []⟩
    [("fa", "changed"), ("fb", "dependency a changed")]
    [("c", some ⟨0, "fc", []⟩)] ["fa", "fb"]
    [("a", some "a"), ("b", some "a"), ("c", none)]
    (by rfl) (by decide) (by decide) (by decide) (by decide) (by decide)
    (by rfl) (by rfl)
  refine ⟨⟨by decide, by rfl⟩, ?_, ?_, ?_⟩
  · exact hmain.1 (by simp)
  · refine (hmain.2 "fb" (by simp) "b" (by rfl)).1 (by decide) ?_
    exact Relation.TransGen.single ⟨⟨0, "fb", ["a"]⟩, by simp, by simp⟩
  · refine (hmain.2 "fc" (by simp) "c" (by rfl)).2 (by decide) ?_
    intro htr
    obtain ⟨d, hedge, _⟩ := Relation.TransGen.head'_iff.1 htr
    obtain ⟨m, hmem, hdm⟩ := hedge
    simp [Prod.mk.injEq] at hmem
    rw [hmem] at hdm
    simp at hdm

/-- C5 counterexample: a present-but-unparsable snapshot file.  The claim
requires `load_modules_metadata` to return the empty snapshot without
raising; the code calls pydantic `validate_json` with no try/except, so the
`ValidationError` propagates and the empty snapshot is not returned. -/
theorem c5_counterexample :
    load_modules_metadata .unparsable "1.0" = .error .validationError ∧
    ¬ load_modules_metadata .unparsable "1.0" =
      .ok (⟨[], ""⟩ : PythonModulesMetadata) :=
  ⟨rfl, fun h => Except.noConfusion h⟩

/-- C5 (amended): `load_modules_metadata` returns the empty snapshot — and
does not raise — when the snapshot file is missing or when it parses with a
`generating_version` different from the current tool version, and those two
cases give identical results; but a file that pydantic cannot parse raises a
`ValidationError` instead of being treated as empty. -/
theorem c5_load_behaviour (v : String) (m : PythonModulesMetadata)
    (hver : ¬ m.generating_version = v) :
    load_modules_metadata .missing v = .ok (⟨[], ""⟩ : PythonModulesMetadata) ∧
    load_modules_metadata (.parsed m) v = .ok (⟨[], ""⟩ : PythonModulesMetadata) ∧
    load_modules_metadata (.parsed m) v = load_modules_metadata .missing v ∧
    load_modules_metadata .unparsable v = .error .validationError := by
  have hp : load_modules_metadata (.parsed m) v =
      .ok (⟨[], ""⟩ : PythonModulesMetadata) := by
    rw [load_modules_metadata]
    rw [if_neg hver]
  exact ⟨rfl, hp, hp, rfl⟩

/-- C5 witness: the amended load behaviour at a concrete stale snapshot
(version "0.9" loaded by tool version "1.0"). -/
theorem c5_witness :
    (¬ (PythonModulesMetadata.mk [] "0.9").generating_version = "1.0") ∧
    load_modules_metadata (.parsed ⟨[], "0.9"⟩) "1.0" =
      .ok (⟨[], ""⟩ : PythonModulesMetadata) :=
  ⟨by decide, (c5_load_behaviour "1.0" ⟨[], "0.9"⟩ (by decide)).2.1⟩

theorem alookup_append_left {α : Type} {l₁ l₂ : List (String × α)} {k : String} {v : α}
    (h : alookup l₁ k = some v) : alookup (l₁ ++ l₂) k = some v := by
  induction l₁ with
  | nil => simp [alookup] at h
  | cons p t ih =>
    obtain ⟨k₁, v₁⟩ := p
    by_cases hk : k₁ = k
    · rw [show alookup ((k₁, v₁) :: t) k = some v₁ by simp [alookup, hk]] at h
      simp [alookup, hk, h]
    · rw [show alookup ((k₁, v₁) :: t) k = alookup t k by simp [alookup, hk]] at h
      rw [List.cons_append]
      rw [show alookup ((k₁, v₁) :: (t ++ l₂)) k = alookup (t ++ l₂) k by
        simp [alookup, hk]]
      exact ih h

theorem alookup_append_right {α : Type} {l₁ : List (String × α)} (l₂ : List (String × α))
    {k : String} (h : alookup l₁ k = none) : alookup (l₁ ++ l₂) k = alookup l₂ k := by
  induction l₁ with
  | nil => rfl
  | cons p t ih =>
    obtain ⟨k₁, v₁⟩ := p
    by_cases hk : k₁ = k
    · rw [show alookup ((k₁, v₁) :: t) k = some v₁ by simp [alookup, hk]] at h
      exact absurd h (by simp)
    · rw [show alookup ((k₁, v₁) :: t) k = alookup t k by simp [alookup, hk]] at h
      rw [List.cons_append]
      rw [show alookup ((k₁, v₁) :: (t ++ l₂)) k = alookup (t ++ l₂) k by
        simp [alookup, hk]]
      exact ih h

theorem akeys_append {α : Type} (l₁ l₂ : List (String × α)) :
    akeys (l₁ ++ l₂) = akeys l₁ ++ akeys l₂ := List.map_append _ _ _

theorem mem_sortStrings {l : List String} {x : String} :
    x ∈ sortStrings l ↔ x ∈ l :=
  List.Perm.mem_iff (List.perm_insertionSort _ l)

theorem rmma_succ_present {env : ImportedEnv} {dm : List (String × List String)}
    {fuel : Nat} {n : String} {md : MetadataMap}
    (h : (alookup md n).isSome) :
    recursive_module_metadata_addition env dm (fuel + 1) n md = some md := by
  rw [recursive_module_metadata_addition, if_pos h]

theorem rmma_succ_nosys {env : ImportedEnv} {dm : List (String × List String)}
    {fuel : Nat} {n : String} {md : MetadataMap}
    (h : ¬ (alookup md n).isSome) (h₂ : env.sysModules n = none) :
    recursive_module_metadata_addition env dm (fuel + 1) n md =
      some (md ++ [(n, none)]) := by
  rw [recursive_module_metadata_addition, if_neg h, h₂]

theorem rmma_succ_nofile {env : ImportedEnv} {dm : List (String × List String)}
    {fuel : Nat} {n : String} {md : MetadataMap}
    (h : ¬ (alookup md n).isSome) (h₂ : env.sysModules n = some none) :
    recursive_module_metadata_addition env dm (fuel + 1) n md =
      some (md ++ [(n, none)]) := by
  rw [recursive_module_metadata_addition, if_neg h, h₂]

theorem rmma_succ_missing {env : ImportedEnv} {dm : List (String × List String)}
    {fuel : Nat} {n f : String} {md : MetadataMap}
    (h : ¬ (alookup md n).isSome) (h₂ : env.sysModules n = some (some f))
    (h₃ : env.fs.pathExists f = false) :
    recursive_module_metadata_addition env dm (fuel + 1) n md =
      some (md ++ [(n, none)]) := by
  rw [recursive_module_metadata_addition, if_neg h, h₂]
  simp [h₃]

theorem rmma_succ_record {env : ImportedEnv} {dm : List (String × List String)}
    {fuel : Nat} {n f : String} {md : MetadataMap}
    (h : ¬ (alookup md n).isSome) (h₂ : env.sysModules n = some (some f))
    (h₃ : env.fs.pathExists f = true) :
    recursive_module_metadata_addition env dm (fuel + 1) n md =
      rmmaDeps env dm fuel (depsGet dm n)
        (md ++ [(n, some ⟨env.fs.stMtime f, f, sortStrings (depsGet dm n)⟩)]) := by
  rw [recursive_module_metadata_addition, if_neg h, h₂]
  simp [h₃]
  rfl

theorem rmmaDeps_nil {env : ImportedEnv} {dm : List (String × List String)}
    {fuel : Nat} {md : MetadataMap} : rmmaDeps env dm fuel [] md = some md := rfl

theorem rmmaDeps_foldl_none {env : ImportedEnv} {dm : List (String × List String)}
    {fuel : Nat} (t : List String) :
    t.foldl
      (fun acc dep => acc.bind (recursive_module_metadata_addition env dm fuel dep))
      none = none := by
  induction t with
  | nil => rfl
  | cons d rest ih => simpa using ih

theorem rmmaDeps_cons_some {env : ImportedEnv} {dm : List (String × List String)}
    {fuel : Nat} {d : String} {t : List String} {md md₂ : MetadataMap}
    (h : recursive_module_metadata_addition env dm fuel d md = some md₂) :
    rmmaDeps env dm fuel (d :: t) md = rmmaDeps env dm fuel t md₂ := by
  rw [rmmaDeps, rmmaDeps, List.foldl_cons]
  rw [show (some md).bind (recursive_module_metadata_addition env dm fuel d)
    = some md₂ by simpa using h]

theorem rmmaDeps_cons_none {env : ImportedEnv} {dm : List (String × List String)}
    {fuel : Nat} {d : String} {t : List String} {md : MetadataMap}
    (h : recursive_module_metadata_addition env dm fuel d md = none) :
    rmmaDeps env dm fuel (d :: t) md = none := by
  rw [rmmaDeps, List.foldl_cons]
  rw [show (some md).bind (recursive_module_metadata_addition env dm fuel d)
    = none by simpa using h]
  exact rmmaDeps_foldl_none t

theorem rmma_basic (env : ImportedEnv) (dm : List (String × List String)) :
    ∀ fuel,
    (∀ n md md₂, recursive_module_metadata_addition env dm fuel n md = some md₂ →
      (∀ k v, alookup md k = some v → alookup md₂ k = some v) ∧
      n ∈ akeys md₂ ∧ (∀ k ∈ akeys md, k ∈ akeys md₂)) ∧
    (∀ deps md md₂, rmmaDeps env dm fuel deps md = some md₂ →
      (∀ k v, alookup md k = some v → alookup md₂ k = some v) ∧
      (∀ k ∈ akeys md, k ∈ akeys md₂) ∧ (∀ d ∈ deps, d ∈ akeys md₂)) := by
  intro fuel
  induction fuel with
  | zero =>
    constructor
    · intro n md md₂ h
      exact absurd h (by simp [recursive_module_metadata_addition])
    · intro deps md md₂ h
      cases deps with
      | nil =>
        rw [rmmaDeps_nil, Option.some.injEq] at h
        subst h
        exact ⟨fun k v hv => hv, fun k hk => hk, by simp⟩
      | cons d t =>
        have h₀ : recursive_module_metadata_addition env dm 0 d md = none := rfl
        rw [rmmaDeps_cons_none h₀] at h
        exact absurd h (by simp)
  | succ g ih =>
    have hA : ∀ n md md₂,
        recursive_module_metadata_addition env dm (g + 1) n md = some md₂ →
        (∀ k v, alookup md k = some v → alookup md₂ k = some v) ∧
        n ∈ akeys md₂ ∧ (∀ k ∈ akeys md, k ∈ akeys md₂) := by
      intro n md md₂ h
      by_cases hp : (alookup md n).isSome
      · rw [rmma_succ_present hp, Option.some.injEq] at h
        subst h
        exact ⟨fun k v hv => hv, (alookup_isSome_iff_mem md n).1 hp, fun k hk => hk⟩
      · have htomb : ∀ h₀ : recursive_module_metadata_addition env dm (g + 1) n md =
            some (md ++ [(n, none)]), md₂ = md ++ [(n, none)] →
            (∀ k v, alookup md k = some v → alookup md₂ k = some v) ∧
            n ∈ akeys md₂ ∧ (∀ k ∈ akeys md, k ∈ akeys md₂) := by
          intro _ he
          subst he
          refine ⟨fun k v hv => alookup_append_left hv, ?_, ?_⟩
          · rw [akeys_append]
            simp [akeys]
          · intro k hk
            rw [akeys_append]
            exact List.mem_append_left _ hk
        cases hsys : env.sysModules n with
        | none =>
          rw [rmma_succ_nosys hp hsys, Option.some.injEq] at h
          exact htomb (rmma_succ_nosys hp hsys) h.symm
        | some file? =>
          cases file? with
          | none =>
            rw [rmma_succ_nofile hp hsys, Option.some.injEq] at h
            exact htomb (rmma_succ_nofile hp hsys) h.symm
          | some f =>
            cases hex : env.fs.pathExists f with
            | false =>
              rw [rmma_succ_missing hp hsys hex, Option.some.injEq] at h
              exact htomb (rmma_succ_missing hp hsys hex) h.symm
            | true =>
              rw [rmma_succ_record hp hsys hex] at h
              obtain ⟨hpre, hmono, _⟩ := ih.2 _ _ _ h
              refine ⟨fun k v hv => hpre k v (alookup_append_left hv), ?_, ?_⟩
              · refine hmono n ?_
                rw [akeys_append]
                simp [akeys]
              · intro k hk
                refine hmono k ?_
                rw [akeys_append]
                exact List.mem_append_left _ hk
    refine ⟨hA, ?_⟩
    intro deps
    induction deps with
    | nil =>
      intro md md₂ h
      rw [rmmaDeps_nil, Option.some.injEq] at h
      subst h
      exact ⟨fun k v hv => hv, fun k hk => hk, by simp⟩
    | cons d t iht =>
      intro md md₂ h
      cases hd : recursive_module_metadata_addition env dm (g + 1) d md with
      | none => rw [rmmaDeps_cons_none hd] at h; exact absurd h (by simp)
      | some m₂ =>
        rw [rmmaDeps_cons_some hd] at h
        obtain ⟨hpre₁, hmem₁, hmono₁⟩ := hA d md m₂ hd
        obtain ⟨hpre₂, hmono₂, hall₂⟩ := iht m₂ md₂ h
        refine ⟨fun k v hv => hpre₂ k v (hpre₁ k v hv), fun k hk => hmono₂ k (hmono₁ k hk), ?_⟩
        intro x hx
        rcases List.mem_cons.1 hx with hx | hx
        · rw [hx]
          exact hmono₂ d hmem₁
        · exact hall₂ x hx

theorem closedExcept_mono_E {md : MetadataMap} {E F : List String}
    (h : ClosedExcept md E) (hEF : ∀ x ∈ E, x ∈ F) : ClosedExcept md F := by
  intro p hp m hm d hd
  rcases h p hp m hm d hd with h₁ | h₁
  · exact Or.inl h₁
  · exact Or.inr (hEF d h₁)

theorem closedExcept_append_tomb {md : MetadataMap} {E : List String} {n : String}
    (h : ClosedExcept md E) : ClosedExcept (md ++ [(n, none)]) E := by
  intro p hp m hm d hd
  rcases List.mem_append.1 hp with hp | hp
  · rcases h p hp m hm d hd with h₁ | h₁
    · refine Or.inl ?_
      rw [akeys_append]
      exact List.mem_append_left _ h₁
    · exact Or.inr h₁
  · rw [List.mem_singleton] at hp
    rw [hp] at hm
    exact absurd hm (by simp)

theorem closedExcept_append_record {md : MetadataMap} {E : List String} {n : String}
    {t : Int} {f : String} {ds : List String}
    (h : ClosedExcept md E) :
    ClosedExcept (md ++ [(n, some ⟨t, f, sortStrings ds⟩)]) (ds ++ E) := by
  intro p hp m hm d hd
  rcases List.mem_append.1 hp with hp | hp
  · rcases h p hp m hm d hd with h₁ | h₁
    · refine Or.inl ?_
      rw [akeys_append]
      exact List.mem_append_left _ h₁
    · exact Or.inr (List.mem_append_right _ h₁)
  · rw [List.mem_singleton] at hp
    rw [hp] at hm
    rw [Option.some.injEq] at hm
    rw [← hm] at hd
    refine Or.inr (List.mem_append_left _ ?_)
    exact mem_sortStrings.1 hd

theorem closedExcept_remove_head {md : MetadataMap} {E : List String} {d : String}
    (h : ClosedExcept md (d :: E)) (hd : d ∈ akeys md) : ClosedExcept md E := by
  intro p hp m hm x hx
  rcases h p hp m hm x hx with h₁ | h₁
  · exact Or.inl h₁
  · rcases List.mem_cons.1 h₁ with h₁ | h₁
    · rw [h₁]
      exact Or.inl hd
    · exact Or.inr h₁

theorem rmma_closed (env : ImportedEnv) (dm : List (String × List String)) :
    ∀ fuel,
    (∀ E n md md₂, ClosedExcept md E →
      recursive_module_metadata_addition env dm fuel n md = some md₂ →
      ClosedExcept md₂ E) ∧
    (∀ E deps md md₂, ClosedExcept md (deps ++ E) →
      rmmaDeps env dm fuel deps md = some md₂ → ClosedExcept md₂ E) := by
  intro fuel
  induction fuel with
  | zero =>
    constructor
    · intro E n md md₂ _ h
      exact absurd h (by simp [recursive_module_metadata_addition])
    · intro E deps md md₂ hc h
      cases deps with
      | nil =>
        rw [rmmaDeps_nil, Option.some.injEq] at h
        subst h
        simpa using hc
      | cons d t =>
        have h₀ : recursive_module_metadata_addition env dm 0 d md = none := rfl
        rw [rmmaDeps_cons_none h₀] at h
        exact absurd h (by simp)
  | succ g ih =>
    have hA : ∀ E n md md₂, ClosedExcept md E →
        recursive_module_metadata_addition env dm (g + 1) n md = some md₂ →
        ClosedExcept md₂ E := by
      intro E n md md₂ hc h
      by_cases hp : (alookup md n).isSome
      · rw [rmma_succ_present hp, Option.some.injEq] at h
        subst h
        exact hc
      · cases hsys : env.sysModules n with
        | none =>
          rw [rmma_succ_nosys hp hsys, Option.some.injEq] at h
          rw [← h]
          exact closedExcept_append_tomb hc
        | some file? =>
          cases file? with
          | none =>
            rw [rmma_succ_nofile hp hsys, Option.some.injEq] at h
            rw [← h]
            exact closedExcept_append_tomb hc
          | some f =>
            cases hex : env.fs.pathExists f with
            | false =>
              rw [rmma_succ_missing hp hsys hex, Option.some.injEq] at h
              rw [← h]
              exact closedExcept_append_tomb hc
            | true =>
              rw [rmma_succ_record hp hsys hex] at h
              exact ih.2 E (depsGet dm n) _ md₂ (closedExcept_append_record hc) h
    refine ⟨hA, ?_⟩
    intro E deps
    induction deps with
    | nil =>
      intro md md₂ hc h
      rw [rmmaDeps_nil, Option.some.injEq] at h
      subst h
      simpa using hc
    | cons d t iht =>
      intro md md₂ hc h
      cases hd : recursive_module_metadata_addition env dm (g + 1) d md with
      | none => rw [rmmaDeps_cons_none hd] at h; exact absurd h (by simp)
      | some m₂ =>
        rw [rmmaDeps_cons_some hd] at h
        have hc₂ : ClosedExcept m₂ ((d :: t) ++ E) := hA _ d md m₂ hc hd
        have hdm₂ : d ∈ akeys m₂ := ((rmma_basic env dm (g + 1)).1 d md m₂ hd).2.1
        have hc₃ : ClosedExcept m₂ (t ++ E) := by
          rw [List.cons_append] at hc₂
          exact closedExcept_remove_head hc₂ hdm₂
        exact iht m₂ md₂ hc₃ h

theorem keysF_append_single {md : MetadataMap} {n : String}
    (v : Option PythonModuleMetadata) :
    (akeys (md ++ [(n, v)])).toFinset = insert n (akeys md).toFinset := by
  rw [akeys_append, List.toFinset_append]
  rw [show akeys [(n, v)] = [n] from rfl]
  rw [show ([n] : List String).toFinset = {n} from rfl]
  rw [Finset.union_comm, Finset.insert_eq]

theorem measure_mono_of_keys {U : Finset String} {md md₂ : MetadataMap}
    (h : ∀ k ∈ akeys md, k ∈ akeys md₂) :
    (U \ (akeys md₂).toFinset).card ≤ (U \ (akeys md).toFinset).card := by
  refine Finset.card_le_card (Finset.sdiff_subset_sdiff (Finset.Subset.refl U) ?_)
  intro x hx
  rw [List.mem_toFinset] at hx ⊢
  exact h x hx

theorem rmma_suff (env : ImportedEnv) (dm : List (String × List String))
    (U : Finset String) (hU : ∀ p ∈ dm, ∀ d ∈ p.2, d ∈ U) :
    ∀ fuel,
    (∀ n md, n ∈ U → (U \ (akeys md).toFinset).card < fuel →
      (recursive_module_metadata_addition env dm fuel n md).isSome) ∧
    (∀ deps md, (∀ d ∈ deps, d ∈ U) → (U \ (akeys md).toFinset).card < fuel →
      (rmmaDeps env dm fuel deps md).isSome) := by
  intro fuel
  induction fuel with
  | zero =>
    constructor
    · intro n md _ hlt
      omega
    · intro deps md _ hlt
      omega
  | succ g ih =>
    have hA : ∀ n md, n ∈ U → (U \ (akeys md).toFinset).card < g + 1 →
        (recursive_module_metadata_addition env dm (g + 1) n md).isSome := by
      intro n md hnU hlt
      by_cases hp : (alookup md n).isSome
      · rw [rmma_succ_present hp]
        rfl
      · have hnK : ¬ n ∈ akeys md := fun hk => hp ((alookup_isSome_iff_mem md n).2 hk)
        cases hsys : env.sysModules n with
        | none => rw [rmma_succ_nosys hp hsys]; rfl
        | some file? =>
          cases file? with
          | none => rw [rmma_succ_nofile hp hsys]; rfl
          | some f =>
            cases hex : env.fs.pathExists f with
            | false => rw [rmma_succ_missing hp hsys hex]; rfl
            | true =>
              rw [rmma_succ_record hp hsys hex]
              have hmem : n ∈ U \ (akeys md).toFinset :=
                Finset.mem_sdiff.2 ⟨hnU, fun hc => hnK (List.mem_toFinset.1 hc)⟩
              have hdec : (U \ (akeys (md ++ [(n, some ⟨env.fs.stMtime f, f,
                  sortStrings (depsGet dm n)⟩)])).toFinset).card <
                  (U \ (akeys md).toFinset).card := by
                rw [keysF_append_single, Finset.sdiff_insert]
                exact Finset.card_erase_lt_of_mem hmem
              refine ih.2 (depsGet dm n) _ ?_ (by omega)
              intro d hd
              rw [depsGet] at hd
              cases hds : alookup dm n with
              | none =>
                rw [hds] at hd
                simp at hd
              | some ds =>
                rw [hds] at hd
                exact hU (n, ds) (alookup_mem hds) d (by simpa using hd)
    refine ⟨hA, ?_⟩
    intro deps
    induction deps with
    | nil =>
      intro md _ _
      rw [rmmaDeps_nil]
      rfl
    | cons d t iht =>
      intro md hdU hlt
      obtain ⟨m₂, hm₂⟩ := Option.isSome_iff_exists.1
        (hA d md (hdU d (List.mem_cons_self _ _)) hlt)
      rw [rmmaDeps_cons_some hm₂]
      have hmono := ((rmma_basic env dm (g + 1)).1 d md m₂ hm₂).2.2
      have hle := measure_mono_of_keys (U := U) hmono
      exact iht m₂ (fun x hx => hdU x (List.mem_cons_of_mem _ hx)) (by omega)

/-- C8: `recursive_module_metadata_addition` terminates on every dependency
map, cyclic ones included: it returns immediately (with the map untouched)
whenever the requested module name is already a key of the map being built;
it never overwrites an entry already present (every existing binding is still
found unchanged afterwards); and the explicit fuel
`|{name} ∪ names in dependency_map| + 1` always suffices — the recursion
cannot run forever because every recursive step first inserts a new key drawn
from that finite set. -/
theorem c8_rmma_termination :
    (∀ (env : ImportedEnv) (dm : List (String × List String)) (fuel : Nat)
      (n : String) (md : MetadataMap), (alookup md n).isSome →
      recursive_module_metadata_addition env dm (fuel + 1) n md = some md) ∧
    (∀ (env : ImportedEnv) (dm : List (String × List String)) (fuel : Nat)
      (n : String) (md md₂ : MetadataMap) (k : String)
      (v : Option PythonModuleMetadata),
      recursive_module_metadata_addition env dm fuel n md = some md₂ →
      alookup md k = some v → alookup md₂ k = some v) ∧
    (∀ (env : ImportedEnv) (dm : List (String × List String)) (n : String)
      (md : MetadataMap),
      (recursive_module_metadata_addition env dm
        ((insert n (depMapNames dm).toFinset).card + 1) n md).isSome) := by
  refine ⟨fun env dm fuel n md h => rmma_succ_present h,
    fun env dm fuel n md md₂ k v h hv =>
      ((rmma_basic env dm fuel).1 n md md₂ h).1 k v hv,
    fun env dm n md => ?_⟩
  have hU : ∀ p ∈ dm, ∀ d ∈ p.2, d ∈ insert n (depMapNames dm).toFinset := by
    intro p hp d hd
    refine Finset.mem_insert_of_mem ?_
    rw [List.mem_toFinset, depMapNames]
    exact List.mem_flatten.2 ⟨p.2, List.mem_map_of_mem Prod.snd hp, hd⟩
  refine (rmma_suff env dm (insert n (depMapNames dm).toFinset) hU _).1 n md
    (Finset.mem_insert_self n _) ?_
  have := Finset.card_le_card
    (Finset.sdiff_subset (s := insert n (depMapNames dm).toFinset)
      (t := (akeys md).toFinset))
  omega

/-- C8 witness: immediate return on a present key, no-overwrite, and the
sufficient fuel bound, at a concrete environment where `a` has file `fa` and
one unresolvable dependency `b`. -/
theorem c8_witness :
    ((alookup ([("a", none)] : MetadataMap) "a").isSome ∧
      recursive_module_metadata_addition
        ⟨fun n => if n = "a" then some (some "fa") else none, fun _ => true, fun _ => 0⟩
        [("a", ["b"])] 1 "a" [("a", none)] = some [("a", none)]) ∧
    (recursive_module_metadata_addition
        ⟨fun n => if n = "a" then some (some "fa") else none, fun _ => true, fun _ => 0⟩
        [("a", ["b"])] 3 "a" [("x", none)] =
      some [("x", none), ("a", some ⟨0, "fa", ["b"]⟩), ("b", none)] ∧
      alookup ([("x", none), ("a", some ⟨0, "fa", ["b"]⟩), ("b", none)] : MetadataMap)
        "x" = some none) ∧
    (recursive_module_metadata_addition
        ⟨fun n => if n = "a" then some (some "fa") else none, fun _ => true, fun _ => 0⟩
        [("a", ["b"])]
        ((insert "a" (depMapNames [("a", ["b"])]).toFinset).card + 1)
        "a" []).isSome :=
  ⟨⟨by decide,
    c8_rmma_termination.1
      ⟨fun n => if n = "a" then some (some "fa") else none, fun _ => true, fun _ => 0⟩
      [("a", ["b"])] 0 "a" [("a", none)] (by decide)⟩,
   ⟨by rfl,
    c8_rmma_termination.2.1
      ⟨fun n => if n = "a" then some (some "fa") else none, fun _ => true, fun _ => 0⟩
      [("a", ["b"])] 3 "a" [("x", none)]
      [("x", none), ("a", some ⟨0, "fa", ["b"]⟩), ("b", none)] "x" none
      (by rfl) (by rfl)⟩,
   c8_rmma_termination.2.2
     ⟨fun n => if n = "a" then some (some "fa") else none, fun _ => true, fun _ => 0⟩
     [("a", ["b"])] "a" []⟩

/-- C10: every metadata map `recursive_module_metadata_addition` grows from a
dependency-closed map is again dependency-closed (each dependency name listed
in any record is a key of the map, as a record or a tombstone), and on every
snapshot satisfying that closure `detect_new_and_dirty_files` returns
successfully: all its dict subscripts hit existing keys and both of its
fixpoint loops exit within their pass bounds. -/
theorem c10_dependency_closure_and_totality :
    (∀ (env : ImportedEnv) (dm : List (String × List String)) (fuel : Nat)
      (n : String) (md md₂ : MetadataMap), DepClosed md →
      recursive_module_metadata_addition env dm fuel n md = some md₂ →
      DepClosed md₂) ∧
    (∀ (fs : FileSystem) (cfs : List String) (mm : PythonModulesMetadata),
      DepClosed mm.modules →
      ∃ out, detect_new_and_dirty_files fs cfs mm = .ok out) := by
  constructor
  · intro env dm fuel n md md₂ hc h
    have h₁ : ClosedExcept md [] := by
      intro p hp m hm d hd
      exact Or.inl (depClosed_record hc p hp m hm d hd)
    have h₂ := (rmma_closed env dm fuel).1 [] n md md₂ h₁ h
    intro p hp d hd
    cases hv : p.2 with
    | none =>
      rw [hv] at hd
      simp [depsOfRecord] at hd
    | some m =>
      rw [hv] at hd
      rcases h₂ p hp m hv d hd with h₃ | h₃
      · exact h₃
      · simp at h₃
  · intro fs cfs mm hc
    exact detect_ok_of_closed fs cfs mm hc

/-- C10 witness: closure of the folded map and totality of the detector on
concrete closed inputs. -/
theorem c10_witness :
    (DepClosed ([] : MetadataMap) ∧
      DepClosed [("a", some ⟨0, "fa", ["b"]⟩), ("b", none)]) ∧
    (DepClosed ([("a", some ⟨0, "fa", ["b"]⟩), ("b", some ⟨0, "fb", ["a"]⟩)] :
        ModulesMap) ∧
      ∃ out, detect_new_and_dirty_files ⟨fun _ => true, fun _ => 0⟩ ["fa"]
        ⟨[("a", some ⟨0, "fa", ["b"]⟩), ("b", some ⟨0, "fb", ["a"]⟩)], ""⟩ =
        .ok out) :=
  ⟨⟨by decide,
    c10_dependency_closure_and_totality.1
      ⟨fun n => if n = "a" then some (some "fa") else none, fun _ => true, fun _ => 0⟩
      [("a", ["b"])] 3 "a" [] [("a", some ⟨0, "fa", ["b"]⟩), ("b", none)]
      (by decide) (by rfl)⟩,
   ⟨by decide,
    c10_dependency_closure_and_totality.2 ⟨fun _ => true, fun _ => 0⟩ ["fa"]
      ⟨[("a", some ⟨0, "fa", ["b"]⟩), ("b", some ⟨0, "fb", ["a"]⟩)], ""⟩
      (by decide)⟩⟩

theorem idm_eq_error_of_detect {env : ImportRunEnv} {fs : FileSystem}
    {cfs : List String} {m : PythonModulesMetadata} {e : PyErr}
    (h : detect_new_and_dirty_files fs cfs m = Except.error e) :
    import_dirty_modules env fs cfs m = Except.error (ImportRunErr.detect e) := by
  rw [import_dirty_modules, h]

theorem idm_eq_unpack_of_detect_ok {env : ImportRunEnv} {fs : FileSystem}
    {cfs : List String} {m : PythonModulesMetadata}
    {r : List (String × String) × ModulesMap × List String}
    (h : detect_new_and_dirty_files fs cfs m = Except.ok r) :
    import_dirty_modules env fs cfs m =
      Except.error (ImportRunErr.valueErrorUnpack 2 3) := by
  rw [import_dirty_modules, h]
  rfl

/-- C7: the claimed abort-on-mismatch behaviour is dead code.
`import_dirty_modules` never raises the `RuntimeError` naming the module and
the expected versus actual paths, and never reaches `save_modules_metadata`
(no `.ok` outcome); whenever `detect_new_and_dirty_files` returns normally,
the two-target unpacking of its 3-tuple raises `ValueError` instead, before
any reimport. -/
theorem c7_claimed_abort_unreachable (env : ImportRunEnv) (fs : FileSystem)
    (cfs : List String) (m : PythonModulesMetadata) :
    (∀ e, ¬ import_dirty_modules env fs cfs m =
        Except.error (ImportRunErr.runtimeMismatch e)) ∧
    (∀ mm, ¬ import_dirty_modules env fs cfs m = Except.ok mm) ∧
    (∀ r, detect_new_and_dirty_files fs cfs m = Except.ok r →
      import_dirty_modules env fs cfs m =
        Except.error (ImportRunErr.valueErrorUnpack 2 3)) := by
  cases hd : detect_new_and_dirty_files fs cfs m with
  | error e =>
    refine ⟨fun e₂ h => ?_, fun mm h => ?_, fun r hr => ?_⟩
    · rw [idm_eq_error_of_detect hd] at h
      exact ImportRunErr.noConfusion (Except.error.inj h)
    · rw [idm_eq_error_of_detect hd] at h
      exact Except.noConfusion h
    · exact Except.noConfusion hr
  | ok r₀ =>
    refine ⟨fun e₂ h => ?_, fun mm h => ?_,
      fun r hr => idm_eq_unpack_of_detect_ok (hd.trans hr)⟩
    · rw [idm_eq_unpack_of_detect_ok hd] at h
      exact ImportRunErr.noConfusion (Except.error.inj h)
    · rw [idm_eq_unpack_of_detect_ok hd] at h
      exact Except.noConfusion h

/-- C7 witness: on a cold-start run (empty snapshot, one current file)
`detect_new_and_dirty_files` returns normally and `import_dirty_modules`
raises the unpacking `ValueError` — no mismatch `RuntimeError`, no save. -/
theorem c7_witness :
    detect_new_and_dirty_files ⟨fun _ => true, fun _ => 0⟩ ["a.py"] ⟨[], ""⟩ =
      Except.ok ([("a.py", "new")], [], []) ∧
    import_dirty_modules ⟨fun f => f, fun _ => some "x", fun p => p⟩
      ⟨fun _ => true, fun _ => 0⟩ ["a.py"] ⟨[], ""⟩ =
      Except.error (ImportRunErr.valueErrorUnpack 2 3) :=
  ⟨rfl,
   (c7_claimed_abort_unreachable ⟨fun f => f, fun _ => some "x", fun p => p⟩
     ⟨fun _ => true, fun _ => 0⟩ ["a.py"] ⟨[], ""⟩).2.2
     ([("a.py", "new")], [], []) rfl⟩

theorem alookup_addDep_self {dm : DepEdges} {c t : String} :
    alookup (addDep dm c t) c =
      some (insertIfAbsent ((alookup dm c).getD []) t) := by
  rw [addDep]
  cases hl : alookup dm c with
  | some l =>
    have hmem : c ∈ akeys dm := (alookup_isSome_iff_mem dm c).1 (by rw [hl]; rfl)
    rw [alookup_aupdate_self _ hmem]
    simp
  | none =>
    rw [alookup_append_right _ hl]
    rw [show alookup [(c, [t])] c = some [t] by simp [alookup]]
    rfl

theorem alookup_addDep_ne {dm : DepEdges} {a c t : String} (h : ¬ a = c) :
    alookup (addDep dm c t) a = alookup dm a := by
  rw [addDep]
  cases hl : alookup dm c with
  | some l => exact alookup_aupdate_ne _ _ h
  | none =>
    cases hla : alookup dm a with
    | some l₂ => exact alookup_append_left hla
    | none =>
      rw [alookup_append_right _ hla]
      simp only [alookup]
      rw [if_neg (fun hh : c = a => h hh.symm)]

theorem edgeMem_addDep {dm : DepEdges} {a b c t : String} :
    edgeMem (addDep dm c t) a b ↔ edgeMem dm a b ∨ (a = c ∧ b = t) := by
  by_cases hac : a = c
  · subst hac
    rw [edgeMem, edgeMem]
    rw [alookup_addDep_self]
    simp only [Option.some.injEq]
    constructor
    · rintro ⟨l, hl, hb⟩
      rw [← hl] at hb
      rw [mem_insertIfAbsent] at hb
      rcases hb with hb | hb
      · cases hla : alookup dm a with
        | some l₂ =>
          rw [hla] at hb
          exact Or.inl ⟨l₂, rfl, by simpa using hb⟩
        | none =>
          rw [hla] at hb
          simp at hb
      · exact Or.inr ⟨by simp, hb⟩
    · rintro (⟨l, hl, hb⟩ | ⟨_, hb⟩)
      · refine ⟨insertIfAbsent ((alookup dm a).getD []) t, rfl, ?_⟩
        rw [mem_insertIfAbsent]
        rw [hl]
        exact Or.inl (by simpa using hb)
      · refine ⟨insertIfAbsent ((alookup dm a).getD []) t, rfl, ?_⟩
        rw [mem_insertIfAbsent]
        exact Or.inr hb
  · rw [edgeMem, edgeMem, alookup_addDep_ne hac]
    constructor
    · exact Or.inl
    · rintro (hb | ⟨hbc, _⟩)
      · exact hb
      · exact absurd hbc hac

theorem fromlistStep_module {mod : ModuleObj} {s : String} {dm : DepEdges}
    {fn n : String} (h : alookup mod.attrs fn = some (.moduleNamed n)) :
    fromlistStep mod s dm fn = addDep dm s n := by
  rw [fromlistStep, h]

theorem fromlistStep_skip_none {mod : ModuleObj} {s : String} {dm : DepEdges}
    {fn : String} (h : alookup mod.attrs fn = none) :
    fromlistStep mod s dm fn = dm := by
  rw [fromlistStep, h]

theorem fromlistStep_skip_nonmodule {mod : ModuleObj} {s : String} {dm : DepEdges}
    {fn : String} (h : alookup mod.attrs fn = some .nonModule) :
    fromlistStep mod s dm fn = dm := by
  rw [fromlistStep, h]

theorem c9_fold_spec (mod : ModuleObj) (s : String) :
    ∀ (fl : List String) (dm : DepEdges) (a b : String),
    edgeMem (fl.foldl (fromlistStep mod s) dm) a b ↔
    edgeMem dm a b ∨
      (a = s ∧ ∃ fn ∈ fl, alookup mod.attrs fn = some (.moduleNamed b)) := by
  intro fl
  induction fl with
  | nil => simp
  | cons fn t ih =>
    intro dm a b
    rw [List.foldl_cons]
    cases hat : alookup mod.attrs fn with
    | none =>
      rw [fromlistStep_skip_none hat]
      rw [ih dm a b]
      constructor
      · rintro (hb | ⟨has, x, hx, hax⟩)
        · exact Or.inl hb
        · exact Or.inr ⟨has, x, List.mem_cons_of_mem _ hx, hax⟩
      · rintro (hb | ⟨has, x, hx, hax⟩)
        · exact Or.inl hb
        · rcases List.mem_cons.1 hx with hx | hx
          · rw [hx] at hax
            rw [hat] at hax
            exact absurd hax (by simp)
          · exact Or.inr ⟨has, x, hx, hax⟩
    | some attr =>
      cases attr with
      | nonModule =>
        rw [fromlistStep_skip_nonmodule hat]
        rw [ih dm a b]
        constructor
        · rintro (hb | ⟨has, x, hx, hax⟩)
          · exact Or.inl hb
          · exact Or.inr ⟨has, x, List.mem_cons_of_mem _ hx, hax⟩
        · rintro (hb | ⟨has, x, hx, hax⟩)
          · exact Or.inl hb
          · rcases List.mem_cons.1 hx with hx | hx
            · rw [hx] at hax
              rw [hat] at hax
              simp at hax
            · exact Or.inr ⟨has, x, hx, hax⟩
      | moduleNamed n =>
        rw [fromlistStep_module hat]
        rw [ih (addDep dm s n) a b, edgeMem_addDep]
        constructor
        · rintro ((hb | ⟨has, hbn⟩) | ⟨has, x, hx, hax⟩)
          · exact Or.inl hb
          · refine Or.inr ⟨has, fn, List.mem_cons_self _ _, ?_⟩
            rw [hat, hbn]
          · exact Or.inr ⟨has, x, List.mem_cons_of_mem _ hx, hax⟩
        · rintro (hb | ⟨has, x, hx, hax⟩)
          · exact Or.inl (Or.inl hb)
          · rcases List.mem_cons.1 hx with hx | hx
            · rw [hx, hat] at hax
              rw [Option.some.injEq, ModAttr.moduleNamed.injEq] at hax
              exact Or.inl (Or.inr ⟨has, hax.symm⟩)
            · exact Or.inr ⟨has, x, hx, hax⟩

/-- C9: for every import seen by the patched `__import__` hook, when the
caller's effective namespace dict — `globals` if truthy, else `locals`, else
empty — carries a string `__name__` `s`, the hook returns the imported module
unchanged and the traced edge map afterwards contains exactly the old edges
plus an edge from `s` to the imported module's name and one to each from-list
attribute that is itself a module; when no string `__name__` can be found,
the module is still returned and the edge map is left untouched — the
missing identity is never fatal. -/
theorem c9_import_hook
    (info : DepEdges) (globalsD localsD : Option PyDict) (mod : ModuleObj)
    (fromlist : Option (List String)) :
    (∀ s, alookup (effDict globalsD localsD) "__name__" = some (.str s) →
      (patched_import info globalsD localsD mod fromlist).1 = mod ∧
      ∀ a b, edgeMem (patched_import info globalsD localsD mod fromlist).2 a b ↔
        edgeMem info a b ∨
          (a = s ∧ (b = mod.name ∨
            ∃ fn ∈ fromlist.getD [],
              alookup mod.attrs fn = some (.moduleNamed b)))) ∧
    ((∀ s, ¬ alookup (effDict globalsD localsD) "__name__" = some (.str s)) →
      patched_import info globalsD localsD mod fromlist = (mod, info)) := by
  constructor
  · intro s hs
    rw [patched_import, hs]
    refine ⟨rfl, ?_⟩
    intro a b
    simp only
    rw [c9_fold_spec mod s (fromlist.getD []) (addDep info s mod.name) a b]
    rw [edgeMem_addDep]
    constructor
    · rintro ((hb | ⟨has, hbn⟩) | ⟨has, x, hx, hax⟩)
      · exact Or.inl hb
      · exact Or.inr ⟨has, Or.inl hbn⟩
      · exact Or.inr ⟨has, Or.inr ⟨x, hx, hax⟩⟩
    · rintro (hb | ⟨has, hbn | ⟨x, hx, hax⟩⟩)
      · exact Or.inl (Or.inl hb)
      · exact Or.inl (Or.inr ⟨has, hbn⟩)
      · exact Or.inr ⟨has, x, hx, hax⟩
  · intro hns
    rw [patched_import]
    cases hv : alookup (effDict globalsD localsD) "__name__" with
    | none => rfl
    | some v =>
      cases v with
      | str s => exact absurd hv (hns s)
      | other => rfl

/-- C9 witness: the hook applied with a caller named `caller` importing
module `m` with a from-list holding a submodule, a plain value and a missing
name; and with no determinable caller identity. -/
theorem c9_witness :
    (alookup (effDict (some [("__name__", .str "caller")]) none) "__name__" =
        some (.str "caller") ∧
      (patched_import [] (some [("__name__", .str "caller")]) none
        ⟨"m", [("sub", .moduleNamed "m.sub"), ("val", .nonModule)]⟩
        (some ["sub", "val", "missing"])).1 =
        ⟨"m", [("sub", .moduleNamed "m.sub"), ("val", .nonModule)]⟩ ∧
      edgeMem (patched_import [] (some [("__name__", .str "caller")]) none
        ⟨"m", [("sub", .moduleNamed "m.sub"), ("val", .nonModule)]⟩
        (some ["sub", "val", "missing"])).2 "caller" "m" ∧
      edgeMem (patched_import [] (some [("__name__", .str "caller")]) none
        ⟨"m", [("sub", .moduleNamed "m.sub"), ("val", .nonModule)]⟩
        (some ["sub", "val", "missing"])).2 "caller" "m.sub") ∧
    ((∀ s, ¬ alookup (effDict none none) "__name__" = some (.str s)) ∧
      patched_import [] none none ⟨"m", []⟩ none = (⟨"m", []⟩, [])) := by
  have h₁ := c9_import_hook [] (some [("__name__", .str "caller")]) none
    ⟨"m", [("sub", .moduleNamed "m.sub"), ("val", .nonModule)]⟩
    (some ["sub", "val", "missing"])
  have hs : alookup (effDict (some [("__name__", .str "caller")]) none) "__name__" =
      some (.str "caller") := by rfl
  obtain ⟨hfst, hiff⟩ := h₁.1 "caller" hs
  have hns : ∀ s, ¬ alookup (effDict none none) "__name__" = some (.str s) := by
    intro s hcontra
    exact Option.noConfusion hcontra
  refine ⟨⟨hs, hfst, ?_, ?_⟩, hns, ?_⟩
  · exact (hiff "caller" "m").2 (Or.inr ⟨rfl, Or.inl rfl⟩)
  · refine (hiff "caller" "m.sub").2 (Or.inr ⟨rfl, Or.inr ⟨"sub", by simp, by rfl⟩⟩)
  · exact (c9_import_hook [] none none ⟨"m", []⟩ none).2 hns

end PysideStubgen
